import Mathlib

/-!
Verification development for the control-flow structuring engine of
`src/backend/ctrl_flow_struct/mod.rs` (the "No More Gotos" recovery pass).

The Rust code is shallowly embedded: the graph is a list-backed stable
digraph (node/edge indices are `Nat`), fallible operations return
`Except Panic`, and the two external `petgraph` facilities the code calls
(`dominators::simple_fast` and the visit maps) are modelled by their
documented contracts over this embedding.  All definitions are executable.
-/

set_option maxHeartbeats 1600000
set_option maxRecDepth 8192

/-- `struct SimpleCondition(String)`: an opaque edge-condition token. -/
abbrev SimpleCondition := String

/-- `enum Condition`: boolean expression tree over simple conditions. -/
inductive Condition where
  | Simple (c : SimpleCondition)
  | And (cs : List Condition)
  | Or (cs : List Condition)

/-- `type Variable = ();` -/
abbrev Variable := Unit

/-- `type ValueSet = ();` -/
abbrev ValueSet := Unit

/-- `enum LoopType`. -/
inductive LoopType where
  | PreChecked (c : Condition)
  | PostChecked (c : Condition)
  | Endless

/-- `enum AstNode`. -/
inductive AstNode where
  | BasicBlock (s : String)
  | Seq (ns : List AstNode)
  | Cond (c : Condition) (t : AstNode) (e : Option AstNode)
  | Loop (lt : LoopType) (body : AstNode)
  | Switch (v : Variable) (cases : List (ValueSet × AstNode)) (dflt : AstNode)

/-- One edge of the stable digraph: source node index, target node index,
and the edge weight (`SimpleCondition`). -/
structure EdgeData where
  src : Nat
  tgt : Nat
  cond : SimpleCondition
deriving DecidableEq

/-- `struct ControlFlowGraph { graph: StableDiGraph<AstNode, SimpleCondition>, entry }`.
Nodes and edges are keyed by their stable indices. -/
structure ControlFlowGraph where
  nodes : List (Nat × AstNode)
  edges : List (Nat × EdgeData)
  entry : Nat

namespace CtrlFlow

/-- The node indices present in the graph. -/
def nodeIds (g : ControlFlowGraph) : List Nat := g.nodes.map Prod.fst

/-- `self.graph[n]` read access: the payload of node `n`, if present. -/
def payloadOf (g : ControlFlowGraph) (n : Nat) : Option AstNode :=
  (g.nodes.find? (fun p => p.1 == n)).map Prod.snd

/-- `self.graph[n] = a` / `mem::replace`: replace the payload of node `n`
(leaving all edges untouched, as petgraph's index-assignment does). -/
def setPayload (g : ControlFlowGraph) (n : Nat) (a : AstNode) : ControlFlowGraph :=
  { g with nodes := g.nodes.map (fun p => if p.1 = n then (p.1, a) else p) }

/-- `StableDiGraph::remove_node`: drop the node and every incident edge,
returning the payload if the node was present. -/
def removeNode (g : ControlFlowGraph) (n : Nat) : ControlFlowGraph × Option AstNode :=
  ({ g with nodes := g.nodes.filter (fun p => !(p.1 == n)),
            edges := g.edges.filter (fun e => !(e.2.src == n) && !(e.2.tgt == n)) },
   payloadOf g n)

/-- A fresh edge index, distinct from every present edge index
(petgraph hands back an index that is not currently in use). -/
def freshEdgeId (g : ControlFlowGraph) : Nat :=
  (g.edges.map Prod.fst).foldl max 0 + 1

/-- `StableDiGraph::add_edge`. -/
def addEdge (g : ControlFlowGraph) (u v : Nat) (c : SimpleCondition) : ControlFlowGraph :=
  { g with edges := g.edges ++ [(freshEdgeId g, ⟨u, v, c⟩)] }

/-- `self.graph.edges(u)` / `neighbors(u)`: the outgoing edges of `u`.
petgraph iterates a node's edges most-recently-added first, hence the
`reverse`. -/
def edgesFrom (g : ControlFlowGraph) (u : Nat) : List (Nat × EdgeData) :=
  (g.edges.filter (fun e => e.2.src == u)).reverse

/-- Edge-level adjacency: there is an edge from `u` to `v`. -/
def adjB (g : ControlFlowGraph) (u v : Nat) : Bool :=
  g.edges.any (fun e => e.2.src == u && e.2.tgt == v)

/-! ## Reachability

`petgraph`'s dominator computation (`dominators::simple_fast`) is modelled
by its contract, which is phrased in terms of reachability: a node `d`
dominates `n` iff every path from the entry to `n` passes through `d`.
We realise reachability both as a proposition (reflexive-transitive closure
of the step relation) and as an executable fixed-point computation, and
prove them equivalent.  Everything is parametrised by a predicate `p` on
the step *target* so that "reachability avoiding a node" is the same
development. -/

/-- One step along an edge whose target satisfies `p`. -/
def StepRel (g : ControlFlowGraph) (p : Nat → Bool) (u v : Nat) : Prop :=
  adjB g u v = true ∧ p v = true

/-- `b` is reachable from `a` along edges whose every visited vertex
(including `a` itself) satisfies `p`. -/
def ReachVia (g : ControlFlowGraph) (p : Nat → Bool) (a b : Nat) : Prop :=
  p a = true ∧ Relation.ReflTransGen (StepRel g p) a b

/-- The targets of all edges of the graph. -/
def edgeTargets (g : ControlFlowGraph) : Finset Nat :=
  (g.edges.map (fun e => e.2.tgt)).toFinset

/-- All vertices a reachability computation started at `a` can ever visit. -/
def reachUniv (g : ControlFlowGraph) (a : Nat) : Finset Nat :=
  insert a (edgeTargets g)

/-- One round of successor closure. -/
def stepF (g : ControlFlowGraph) (p : Nat → Bool) (s : Finset Nat) : Finset Nat :=
  s ∪ ((g.edges.filter (fun e => decide (e.2.src ∈ s) && p e.2.tgt)).map
        (fun e => e.2.tgt)).toFinset

/-- The start set of the closure. -/
def reachStart (p : Nat → Bool) (a : Nat) : Finset Nat :=
  if p a then {a} else ∅

/-- Executable reachability: iterate the closure to its fixed point. -/
def reachSet (g : ControlFlowGraph) (p : Nat → Bool) (a : Nat) : Finset Nat :=
  (stepF g p)^[(reachUniv g a).card] (reachStart p a)

/-- `b` is reachable from `a` (no vertex avoided). -/
def Reaches (g : ControlFlowGraph) (a b : Nat) : Prop :=
  ReachVia g (fun _ => true) a b

/-- `d` dominates `n` (for the root `g.entry`): `n` is reachable and no
walk from the entry reaches `n` while avoiding `d`.  This is the
dominator relation that `petgraph`'s `dominators::simple_fast` computes. -/
def Dominates (g : ControlFlowGraph) (d n : Nat) : Prop :=
  Reaches g g.entry n ∧ ¬ ReachVia g (fun v => decide (v ≠ d)) g.entry n

/-- Executable test for `Dominates`. -/
def dominatesB (g : ControlFlowGraph) (d n : Nat) : Bool :=
  decide (n ∈ reachSet g (fun _ => true) g.entry) &&
  !(decide (n ∈ reachSet g (fun v => decide (v ≠ d)) g.entry))

/-- Models `petgraph`'s `dominators::simple_fast(&self.graph, self.entry)`
followed by `.dominators(n)`: for a node `n` reachable from the entry it
returns the list of all dominators of `n` (which is the chain from `n` up
to the root, `n` and the root included); for an unreachable `n` it returns
`none`. -/
def dominatorsOf (g : ControlFlowGraph) (n : Nat) : Option (List Nat) :=
  if n ∈ reachSet g (fun _ => true) g.entry then
    some ((nodeIds g).filter (fun d => dominatesB g d n))
  else none

/-- `ControlFlowGraph::dominates_set`: the set of nodes that `h` dominates.
Mirrors the source: iterate `node_references()`, ask the dominator oracle
for each node's chain (`unwrap_or(false)` when the oracle has no answer,
i.e. the node is unreachable) and test whether `h` occurs in it. -/
def dominates_set (g : ControlFlowGraph) (h : Nat) : Finset Nat :=
  g.nodes.foldl
    (fun ret p =>
      if ((dominatorsOf g p.1).map (fun ds => ds.any (fun d => d == h))).getD false then
        insert p.1 ret
      else ret)
    ∅

/-- `ControlFlowGraph::successors_of_set`: the union of the out-neighbors
of each node in `set`. -/
def successors_of_set (g : ControlFlowGraph) (s : Finset Nat) : Finset Nat :=
  s.biUnion (fun ni => ((g.edges.filter (fun e => e.2.src == ni)).map
    (fun e => e.2.tgt)).toFinset)

/-- An upper bound on every node index and edge-target index: models
`graph.node_bound()`, the capacity of the `FixedBitSet`s
(`mk_node_set`). -/
def nodeBound (g : ControlFlowGraph) : Nat :=
  ((nodeIds g ++ g.edges.map (fun e => e.2.tgt)).foldl max 0) + 1

/-- `FixedBitSet::ones()` / the `difference` iterator: the members of `s`
in ascending order, up to the bitset capacity. -/
def iterOnes (g : ControlFlowGraph) (s : Finset Nat) : List Nat :=
  (List.range (nodeBound g)).filter (fun i => decide (i ∈ s))

/-- The acyclic-case region test of `structure_whole` (lines 70-84): compute
`region = dominates_set n`; if it has more than one node, take the iterator
of `region_successors = successors_of_set(region) − region`, and accept
with the first successor exactly when a second one does not exist. -/
def seseDecision (g : ControlFlowGraph) (n : Nat) : Option Nat :=
  let region := dominates_set g n
  if region.card > 1 then
    match iterOnes g (successors_of_set g region \ region) with
    | succ :: rest => if rest.isEmpty then some succ else none
    | [] => none
  else none

/-! ## The custom depth-first search (`do_dfs` / `DfsState::go_rec`)

The Rust recursion is embedded with an explicit fuel parameter so that the
definition is structural (and hence executable in the kernel); the fuel
`dfsFuel` is proved sufficient below, so the wrapped runner `runDfs`
computes exactly the run of the source recursion.

`examined` is a ghost log with no counterpart in the source state: every
time the loop body of `go_rec` examines an edge `e` (one iteration of
`for e in self.graph.edges(u)`), the triple
`(e.id, v ∈ discovered, v ∈ finished)` of the tests the source performs at
that moment is appended.  It only records what the code already computes,
and lets theorems speak about "the moment the edge is examined". -/

structure DfsState where
  discovered : Finset Nat
  finished : Finset Nat
  /-- entries of the `backedges: HashMap<NodeIndex, Vec<EdgeIndex>>`
  multimap, in insertion order: (target node, edge index). -/
  backedges : List (Nat × Nat)
  podfs_trace : List Nat
  /-- ghost log, see above: (edge index, target discovered?, target finished?). -/
  examined : List (Nat × Bool × Bool)

def dfsInit (d : Finset Nat) : DfsState :=
  ⟨d, ∅, [], [], []⟩

/-- Ghost logging of one edge examination (see above). -/
def examineEdge (e : Nat × EdgeData) (s : DfsState) : DfsState :=
  { s with examined := s.examined ++
      [(e.1, decide (e.2.tgt ∈ s.discovered), decide (e.2.tgt ∈ s.finished))] }

/-- `self.backedges.entry(v).or_insert(Vec::new()).push(e.id())`. -/
def recordBackedge (e : Nat × EdgeData) (s : DfsState) : DfsState :=
  { s with backedges := s.backedges ++ [(e.2.tgt, e.1)] }

/-- `self.discovered.visit(u)` succeeding. -/
def discover (u : Nat) (s : DfsState) : DfsState :=
  { s with discovered := insert u s.discovered }

/-- `self.finished.visit(u)` plus `self.podfs_trace.push(u)`. -/
def finishNode (u : Nat) (s : DfsState) : DfsState :=
  { s with finished := insert u s.finished, podfs_trace := s.podfs_trace ++ [u] }

/-- The edge loop of `go_rec` (`for e in self.graph.edges(u)`), parametrised
by the recursive call `go` for undiscovered targets. -/
def go_edges (go : Nat → DfsState → Option DfsState) :
    List (Nat × EdgeData) → DfsState → Option DfsState
  | [], s => some s
  | e :: rest, s =>
    if e.2.tgt ∈ s.discovered then
      if e.2.tgt ∈ s.finished then go_edges go rest (examineEdge e s)
      else go_edges go rest (recordBackedge e (examineEdge e s))
    else
      match go e.2.tgt (examineEdge e s) with
      | none => none
      | some s1 => go_edges go rest s1

/-- `DfsState::go_rec`, fuelled.  `discovered.visit(u)` returning `false`
(u already discovered) makes the call a no-op; otherwise `u` is discovered,
its edges are examined (recursing on undiscovered targets, recording a back
edge for discovered-but-unfinished targets), and finally `u` is marked
finished and appended to the post-order trace. -/
def go_rec (g : ControlFlowGraph) : Nat → Nat → DfsState → Option DfsState
  | 0 => fun _ _ => none
  | fuel + 1 => fun u s =>
    if u ∈ s.discovered then some s
    else
      match go_edges (go_rec g fuel) (edgesFrom g u) (discover u s) with
      | none => none
      | some s2 => some (finishNode u s2)

/-- Fuel that always suffices (proved below): one more than the number of
vertices the search could ever discover. -/
def dfsFuel (g : ControlFlowGraph) (u : Nat) : Nat :=
  1 + (insert u (edgeTargets g)).card

/-- Run the DFS from `u` with the initially-discovered set `d`. -/
def runDfs (g : ControlFlowGraph) (u : Nat) (d : Finset Nat) : DfsState :=
  (go_rec g (dfsFuel g u) u (dfsInit d)).getD (dfsInit d)

/-- `ControlFlowGraph::do_dfs`. -/
def do_dfs (g : ControlFlowGraph) : DfsState :=
  runDfs g g.entry ∅

/-- `backedges.get(&n)` of the result of `do_dfs`: the recorded back edges
whose key is `n`, or `None` if no back edge was recorded for `n`. -/
def backedgesFor (st : DfsState) (n : Nat) : Option (List Nat) :=
  match (st.backedges.filter (fun p => p.1 == n)).map Prod.snd with
  | [] => none
  | l => some l

/-! ## The acyclic SESE region collapse -/

/-- The kinds of `panic!` the source can reach (`unimplemented!`, indexing
a removed node, `Option::unwrap` on `None`). -/
inductive Panic where
  | unimplementedPanic
  | indexPanic
  | unwrapPanic
deriving DecidableEq

/-- `let reaching_cond = Condition::Simple(SimpleCondition("".to_owned()))`
— the `// XXX` placeholder the source uses instead of synthesizing the
reaching condition of a region node. -/
def reaching_cond : Condition := Condition.Simple ""

/-- The nodes `petgraph`'s `DfsPostOrder` pushes when it first discovers
`nx`: its undiscovered out-neighbors, iterated newest-edge-first and pushed
one by one, so the head of this list (the last one pushed) becomes the new
top of the stack.  `disc` is the discovered set as of just after `nx` was
discovered (pushing does not discover). -/
def pushList (g : ControlFlowGraph) (nx : Nat) (disc : Finset Nat) : List Nat :=
  (((edgesFrom g nx).map (fun e => e.2.tgt)).filter (fun v => decide (v ∉ disc))).reverse

/-- `petgraph`'s `DfsPostOrder::next`, drained to a list, fuelled (the fuel
is proved sufficient below).  Peek the top of the stack: a node not yet
discovered is discovered and stays on the stack underneath its undiscovered
neighbors; an already-discovered node is popped, and emitted if this is the
first time it finishes.  Returns (emitted trace, discovered, finished). -/
def dfsPostOrderGo (g : ControlFlowGraph) :
    Nat → List Nat → Finset Nat → Finset Nat → List Nat →
    Option (List Nat × Finset Nat × Finset Nat)
  | 0, _, _, _, _ => none
  | fuel + 1, stack, disc, fin, acc =>
    match stack with
    | [] => some (acc, disc, fin)
    | nx :: rest =>
      if nx ∈ disc then
        if nx ∈ fin then dfsPostOrderGo g fuel rest disc fin acc
        else dfsPostOrderGo g fuel rest disc (insert nx fin) (acc ++ [nx])
      else
        dfsPostOrderGo g fuel (pushList g nx (insert nx disc) ++ nx :: rest)
          (insert nx disc) fin acc

/-- Fuel that always suffices for `dfsPostOrderGo` (proved below): every
step either pops the stack or discovers a node while pushing at most
`g.edges.length` entries. -/
def postorderFuel (g : ControlFlowGraph) (u : Nat) : Nat :=
  2 + (insert u (edgeTargets g)).card * (1 + g.edges.length)

/-- Models `petgraph`'s `DfsPostOrder::new(&self.graph, header)` with
`visitor.discovered.visit(successor)` pre-marked, drained by
`visitor.iter(&self.graph).collect()`: the iterative
push-all-undiscovered-neighbors post-order traversal from `header` that
never enters `successor` (and emits a pre-discovered start node once). -/
def regionPostorder (g : ControlFlowGraph) (header successor : Nat) : List Nat :=
  ((dfsPostOrderGo g (postorderFuel g header) [header] {successor} ∅ []).getD
    ([], ∅, ∅)).1

/-- The loop body of `structure_acyclic_sese_region` (lines 109-123): walk
the region nodes in reverse post-order; take the header's payload by
in-place replacement with a dummy (`mem::replace`, panicking if the header
is absent), remove every other node (`remove_node(n).unwrap()`), and wrap
each payload as `Cond(reaching_cond, payload, None)`. -/
def collapseGo (header : Nat) :
    List Nat → ControlFlowGraph → List AstNode → Except Panic (ControlFlowGraph × List AstNode)
  | [], g, acc => Except.ok (g, acc)
  | n :: rest, g, acc =>
    if n = header then
      match payloadOf g header with
      | none => Except.error Panic.indexPanic
      | some p =>
        collapseGo header rest (setPayload g header (AstNode.Seq []))
          (acc ++ [AstNode.Cond reaching_cond p none])
    else
      match payloadOf g n with
      | none => Except.error Panic.unwrapPanic
      | some p =>
        collapseGo header rest (removeNode g n).1
          (acc ++ [AstNode.Cond reaching_cond p none])

/-- `ControlFlowGraph::structure_acyclic_sese_region`. -/
def structure_acyclic_sese_region (g : ControlFlowGraph) (header successor : Nat) :
    Except Panic ControlFlowGraph :=
  match collapseGo header (regionPostorder g header successor).reverse g [] with
  | Except.error p => Except.error p
  | Except.ok (g1, repl) =>
    match payloadOf g1 header with
    | none => Except.error Panic.indexPanic
    | some _ =>
      Except.ok (addEdge (setPayload g1 header (AstNode.Seq repl)) header successor "")

/-! ## The driver (`structure_whole`) -/

/-- The cyclic branch of the driver loop (lines 60-69): it only prints, but
the prints index `self.graph[n]` and `unwrap` each back edge's endpoints
(and index the latch's payload), so it panics when `n` or a recorded back
edge (or its source) is no longer in the graph. -/
def loopBranchStep (g : ControlFlowGraph) (n : Nat) (bes : List Nat) :
    Except Panic ControlFlowGraph :=
  if (payloadOf g n).isNone then Except.error Panic.indexPanic
  else if bes.any (fun eid =>
      match g.edges.lookup eid with
      | none => true
      | some ed => (payloadOf g ed.src).isNone) then
    Except.error Panic.unwrapPanic
  else Except.ok g

/-- The acyclic branch of the driver loop (lines 70-84). -/
def acyclicStep (g : ControlFlowGraph) (n : Nat) : Except Panic ControlFlowGraph :=
  match seseDecision g n with
  | some succ => structure_acyclic_sese_region g n succ
  | none => Except.ok g

/-- One iteration of `for n in podfs_trace`. -/
def driverStep (st : DfsState) (g : ControlFlowGraph) (n : Nat) :
    Except Panic ControlFlowGraph :=
  match backedgesFor st n with
  | some bes => loopBranchStep g n bes
  | none => acyclicStep g n

def driverLoop (st : DfsState) : List Nat → ControlFlowGraph → Except Panic ControlFlowGraph
  | [], g => Except.ok g
  | n :: rest, g =>
    match driverStep st g n with
    | Except.error p => Except.error p
    | Except.ok g' => driverLoop st rest g'

/-- `ControlFlowGraph::structure_whole`: run the DFS, iterate the post-order
trace dispatching each node to the cyclic or acyclic branch, and finally
reach the `unimplemented!()` at line 86. -/
def structure_whole (g0 : ControlFlowGraph) : Except Panic AstNode :=
  match driverLoop (do_dfs g0) (do_dfs g0).podfs_trace g0 with
  | Except.error p => Except.error p
  | Except.ok _ => Except.error Panic.unimplementedPanic

/-! ## The condition simplifier (modelled from the spec) -/

mutual
/-- Modelled from the spec: the Condition Synthesizer's simplification pass
(spec §4.6 "Degenerate cases — a single predecessor, or an edge condition
of true — must simplify away", §3 "an `And`/`Or` ... with one child is
equivalent to that child and should be collapsed by the synthesizer").
No simplifier exists in the source: the reaching-condition computation is
the `// XXX` placeholder `reaching_cond` above. -/
def simplifyCondition : Condition → Condition
  | Condition.Simple c => Condition.Simple c
  | Condition.And cs =>
    match simplifyList cs with
    | [c] => c
    | cs' => Condition.And cs'
  | Condition.Or cs =>
    match simplifyList cs with
    | [c] => c
    | cs' => Condition.Or cs'

def simplifyList : List Condition → List Condition
  | [] => []
  | c :: cs => simplifyCondition c :: simplifyList cs
end

mutual
/-- No `And`/`Or` with zero children occurs anywhere in a condition. -/
def noEmptyConn : Condition → Bool
  | Condition.Simple _ => true
  | Condition.And cs => !cs.isEmpty && noEmptyConnList cs
  | Condition.Or cs => !cs.isEmpty && noEmptyConnList cs

def noEmptyConnList : List Condition → Bool
  | [] => true
  | c :: cs => noEmptyConn c && noEmptyConnList cs
end

/-! ## Auxiliary notions used by the theorems -/

/-- The non-header nodes of the collapsed region: these are the nodes
`structure_acyclic_sese_region` removes. -/
def interiorOf (g : ControlFlowGraph) (header successor : Nat) : List Nat :=
  (regionPostorder g header successor).filter (fun n => !(n == header))

/-- The multiset of (source, target) pairs of the edges crossing the
boundary of `region`: edges whose source or target lies outside it. -/
def crossingMultiset (g : ControlFlowGraph) (region : Finset Nat) :
    Multiset (Nat × Nat) :=
  ((g.edges.filter (fun e => !(decide (e.2.src ∈ region)) ||
      !(decide (e.2.tgt ∈ region)))).map (fun e => (e.2.src, e.2.tgt)) : List (Nat × Nat))

/-- Edge survives the removal of the non-header region nodes in `l`. -/
def keepEdge (header : Nat) (l : List Nat) (e : Nat × EdgeData) : Bool :=
  l.all (fun n => n == header || (!(e.2.src == n) && !(e.2.tgt == n)))

/-- Node survives the removal of the non-header region nodes in `l`. -/
def keepNode (header : Nat) (l : List Nat) (i : Nat) : Bool :=
  l.all (fun n => n == header || !(i == n))

/-- Every edge endpoint is a node of the graph — `petgraph`'s stable graphs
guarantee this (edges can only be added between existing nodes and are
removed with their endpoints). -/
def EdgesWellFormed (g : ControlFlowGraph) : Prop :=
  ∀ e ∈ g.edges, e.2.src ∈ nodeIds g ∧ e.2.tgt ∈ nodeIds g

/-- A DFS run only ever extends the state: the visit maps grow and the
lists are appended to. -/
def DfsLe (s r : DfsState) : Prop :=
  s.discovered ⊆ r.discovered ∧ s.finished ⊆ r.finished ∧
  (∃ t, r.podfs_trace = s.podfs_trace ++ t) ∧
  (∃ t, r.backedges = s.backedges ++ t) ∧
  (∃ t, r.examined = s.examined ++ t)

/-- A DFS run extends the state, finishes only nodes that were undiscovered
when it started, and leaves no new node discovered-but-unfinished. -/
def DfsStep (s r : DfsState) : Prop :=
  DfsLe s r ∧
  (∀ n, n ∈ r.finished → n ∈ s.finished ∨ n ∉ s.discovered) ∧
  (∀ n, n ∈ r.discovered → n ∉ r.finished → n ∈ s.discovered ∧ n ∉ s.finished)

/-- Structural sanity of a DFS state: finished nodes are discovered, and
the post-order trace lists exactly the finished nodes, without repetition. -/
def StInv (s : DfsState) : Prop :=
  s.finished ⊆ s.discovered ∧
  (∀ n, n ∈ s.podfs_trace ↔ n ∈ s.finished) ∧
  s.podfs_trace.Nodup

/-- The examined-edge log has no repeated edge index, and each examined
edge's source node has been discovered. -/
def ExInv (g : ControlFlowGraph) (s : DfsState) : Prop :=
  (s.examined.map Prod.fst).Nodup ∧
  (∀ id ∈ s.examined.map Prod.fst,
    ∃ ed, (id, ed) ∈ g.edges ∧ ed.src ∈ s.discovered)

/-- The recorded back edges are exactly the examined edges whose target was
discovered and not finished at examination time, keyed by that target. -/
def BeInv (g : ControlFlowGraph) (s : DfsState) : Prop :=
  s.backedges = s.examined.filterMap (fun t =>
    if t.2.1 && !t.2.2 then (g.edges.lookup t.1).map (fun ed => (ed.tgt, t.1)) else none)

/-! ## Concrete graphs used as witnesses and counterexamples -/

/-- A single basic block. -/
def gOne : ControlFlowGraph :=
  ⟨[(0, AstNode.BasicBlock "A")], [], 0⟩

/-- The straight line `A(0) → B(1) → C(2)`. -/
def gPath : ControlFlowGraph :=
  ⟨[(0, AstNode.BasicBlock "A"), (1, AstNode.BasicBlock "B"), (2, AstNode.BasicBlock "C")],
   [(0, ⟨0, 1, "t"⟩), (1, ⟨1, 2, "u"⟩)], 0⟩

/-- What collapsing the region `{0, 1}` of `gPath` (header 0, successor 2)
produces. -/
def gPathAfter : ControlFlowGraph :=
  ⟨[(0, AstNode.Seq [AstNode.Cond reaching_cond (AstNode.BasicBlock "A") none,
                     AstNode.Cond reaching_cond (AstNode.BasicBlock "B") none]),
    (2, AstNode.BasicBlock "C")],
   [(1, ⟨0, 2, ""⟩)], 0⟩

/-- The region collapsed in `gPath`. -/
def pathRegion : Finset Nat := {0, 1}

/-- The two-branch diamond: `H(0) → A(1)` on `c`, `H(0) → B(2)` on `!c`,
`A(1) → S(3)`, `B(2) → S(3)`. -/
def gDiamond : ControlFlowGraph :=
  ⟨[(0, AstNode.BasicBlock "H"), (1, AstNode.BasicBlock "A"),
    (2, AstNode.BasicBlock "B"), (3, AstNode.BasicBlock "S")],
   [(0, ⟨0, 1, "c"⟩), (1, ⟨0, 2, "!c"⟩), (2, ⟨1, 3, ""⟩), (3, ⟨2, 3, ""⟩)], 0⟩

/-- What collapsing the diamond's region (header 0, successor 3) produces:
every payload is guarded by the placeholder condition, the header's old
payload included (the region post-order is `[1, 2, 0]`, so its reverse
processes H, then B, then A), and a single edge `0 → 3` remains. -/
def gDiamondAfter : ControlFlowGraph :=
  ⟨[(0, AstNode.Seq [AstNode.Cond reaching_cond (AstNode.BasicBlock "H") none,
                     AstNode.Cond reaching_cond (AstNode.BasicBlock "B") none,
                     AstNode.Cond reaching_cond (AstNode.BasicBlock "A") none]),
    (3, AstNode.BasicBlock "S")],
   [(1, ⟨0, 3, ""⟩)], 0⟩

/-- Entry `0 → 1`, `1 → 2`, `2 → 3`, and a bypass `0 → 3`; the region
dominated by `1` is `{1, 2}` with the single successor `3`. -/
def gW : ControlFlowGraph :=
  ⟨[(0, AstNode.BasicBlock "E"), (1, AstNode.BasicBlock "H"),
    (2, AstNode.BasicBlock "A"), (3, AstNode.BasicBlock "S")],
   [(0, ⟨0, 1, ""⟩), (1, ⟨1, 2, ""⟩), (2, ⟨2, 3, ""⟩), (3, ⟨0, 3, ""⟩)], 0⟩

/-- The collapse of `gW`'s region `{1, 2}` (header 1, successor 3). -/
def gWAfter : ControlFlowGraph :=
  ⟨[(0, AstNode.BasicBlock "E"),
    (1, AstNode.Seq [AstNode.Cond reaching_cond (AstNode.BasicBlock "H") none,
                     AstNode.Cond reaching_cond (AstNode.BasicBlock "A") none]),
    (3, AstNode.BasicBlock "S")],
   [(0, ⟨0, 1, ""⟩), (3, ⟨0, 3, ""⟩), (4, ⟨1, 3, ""⟩)], 0⟩

/-- A two-node cycle `0 → 1 → 0`: the edge `1 → 0` is a back edge. -/
def gCycle : ControlFlowGraph :=
  ⟨[(0, AstNode.BasicBlock "A"), (1, AstNode.BasicBlock "B")],
   [(0, ⟨0, 1, ""⟩), (1, ⟨1, 0, ""⟩)], 0⟩

lemma subset_stepF (g : ControlFlowGraph) (p : Nat → Bool) (s : Finset Nat) :
    s ⊆ stepF g p s :=
  Finset.subset_union_left

lemma stepF_subset_univ (g : ControlFlowGraph) (p : Nat → Bool) {a : Nat}
    {s : Finset Nat} (hs : s ⊆ reachUniv g a) : stepF g p s ⊆ reachUniv g a := by
  intro x hx
  rcases Finset.mem_union.mp hx with h | h
  · exact hs h
  · rcases List.mem_toFinset.mp h with hx'
    rcases List.mem_map.mp hx' with ⟨e, he, rfl⟩
    rcases List.mem_filter.mp he with ⟨heg, _⟩
    exact Finset.mem_insert_of_mem (List.mem_toFinset.mpr
      (List.mem_map.mpr ⟨e, heg, rfl⟩))

lemma iterate_stepF_subset_univ (g : ControlFlowGraph) (p : Nat → Bool) {a : Nat}
    {s : Finset Nat} (hs : s ⊆ reachUniv g a) (k : Nat) :
    (stepF g p)^[k] s ⊆ reachUniv g a := by
  induction k with
  | zero => simpa using hs
  | succ k ih =>
    rw [Function.iterate_succ_apply']
    exact stepF_subset_univ g p ih

lemma iterate_stepF_mono_succ (g : ControlFlowGraph) (p : Nat → Bool)
    (s : Finset Nat) (k : Nat) :
    (stepF g p)^[k] s ⊆ (stepF g p)^[k + 1] s := by
  rw [Function.iterate_succ_apply']
  exact subset_stepF g p _

lemma stepF_stall (g : ControlFlowGraph) (p : Nat → Bool) (s : Finset Nat) {k : Nat}
    (h : (stepF g p)^[k + 1] s = (stepF g p)^[k] s) :
    ∀ j, (stepF g p)^[k + j] s = (stepF g p)^[k] s := by
  intro j
  induction j with
  | zero => rfl
  | succ j ih =>
    have hstep : k + (j + 1) = (k + j) + 1 := by omega
    have h' : stepF g p ((stepF g p)^[k] s) = (stepF g p)^[k + 1] s :=
      (Function.iterate_succ_apply' _ _ _).symm
    rw [hstep, Function.iterate_succ_apply', ih, h', h]

lemma stepF_exists_stall (g : ControlFlowGraph) (p : Nat → Bool) {a : Nat}
    {s : Finset Nat} (hs : s ⊆ reachUniv g a) :
    ∃ k ≤ (reachUniv g a).card, (stepF g p)^[k + 1] s = (stepF g p)^[k] s := by
  by_contra hcon
  push_neg at hcon
  have grow : ∀ k, (∀ j < k, (stepF g p)^[j + 1] s ≠ (stepF g p)^[j] s) →
      k ≤ ((stepF g p)^[k] s).card := by
    intro k
    induction k with
    | zero => intro _; exact Nat.zero_le _
    | succ k ih =>
      intro hne
      have h1 : k ≤ ((stepF g p)^[k] s).card :=
        ih (fun j hj => hne j (Nat.lt_succ_of_lt hj))
      have hss : (stepF g p)^[k] s ⊂ (stepF g p)^[k + 1] s :=
        Finset.ssubset_iff_subset_ne.mpr
          ⟨iterate_stepF_mono_succ g p s k, fun h => (hne k (Nat.lt_succ_self k)) h.symm⟩
      have := Finset.card_lt_card hss
      omega
  have hall : ∀ j < (reachUniv g a).card + 1,
      (stepF g p)^[j + 1] s ≠ (stepF g p)^[j] s := by
    intro j hj
    exact hcon j (by omega)
  have h1 := grow ((reachUniv g a).card + 1) hall
  have h2 : ((stepF g p)^[(reachUniv g a).card + 1] s).card ≤ (reachUniv g a).card :=
    Finset.card_le_card (iterate_stepF_subset_univ g p hs _)
  omega

lemma reachStart_subset_univ (g : ControlFlowGraph) (p : Nat → Bool) (a : Nat) :
    reachStart p a ⊆ reachUniv g a := by
  unfold reachStart
  split
  · intro x hx
    rcases Finset.mem_singleton.mp hx with rfl
    exact Finset.mem_insert_self _ _
  · exact Finset.empty_subset _

/-- The computed reach set is a fixed point of the closure round. -/
lemma stepF_reachSet_fix (g : ControlFlowGraph) (p : Nat → Bool) (a : Nat) :
    stepF g p (reachSet g p a) = reachSet g p a := by
  obtain ⟨k, hk, heq⟩ := stepF_exists_stall g p (reachStart_subset_univ g p a)
  have hstall := stepF_stall g p (reachStart p a) heq
  have hN : (reachUniv g a).card = k + ((reachUniv g a).card - k) := by omega
  have h1 : reachSet g p a = (stepF g p)^[k] (reachStart p a) := by
    unfold reachSet
    rw [hN]
    exact hstall _
  have h2 : stepF g p ((stepF g p)^[k] (reachStart p a)) =
      (stepF g p)^[k + 1] (reachStart p a) :=
    (Function.iterate_succ_apply' _ _ _).symm
  rw [h1, h2, heq]

lemma start_subset_reachSet (g : ControlFlowGraph) (p : Nat → Bool) (a : Nat) :
    reachStart p a ⊆ reachSet g p a := by
  unfold reachSet
  generalize (reachUniv g a).card = k
  induction k with
  | zero => exact fun x hx => hx
  | succ k ih =>
    exact Finset.Subset.trans ih (iterate_stepF_mono_succ g p _ k)

/-- Soundness: every member of the computed set is genuinely reachable. -/
lemma reachSet_sound (g : ControlFlowGraph) (p : Nat → Bool) (a : Nat) :
    ∀ b ∈ reachSet g p a, ReachVia g p a b := by
  unfold reachSet
  generalize (reachUniv g a).card = k
  induction k with
  | zero =>
    intro b hb
    simp only [Function.iterate_zero_apply] at hb
    unfold reachStart at hb
    split at hb
    · rcases Finset.mem_singleton.mp hb with rfl
      exact ⟨by assumption, Relation.ReflTransGen.refl⟩
    · exact absurd hb (Finset.not_mem_empty b)
  | succ k ih =>
    intro b hb
    rw [Function.iterate_succ_apply'] at hb
    rcases Finset.mem_union.mp hb with h | h
    · exact ih b h
    · rcases List.mem_map.mp (List.mem_toFinset.mp h) with ⟨e, he, rfl⟩
      rcases List.mem_filter.mp he with ⟨heg, hcond⟩
      simp only [Bool.and_eq_true] at hcond
      rcases hcond with ⟨hsrc, hp⟩
      have hsrc' : e.2.src ∈ (stepF g p)^[k] (reachStart p a) := of_decide_eq_true hsrc
      obtain ⟨hpa, hrtg⟩ := ih e.2.src hsrc'
      refine ⟨hpa, hrtg.tail ⟨?_, hp⟩⟩
      unfold adjB
      exact List.any_eq_true.mpr ⟨e, heg, by simp⟩

/-- Completeness: every genuinely reachable vertex is in the computed set. -/
lemma reachSet_complete (g : ControlFlowGraph) (p : Nat → Bool) (a b : Nat)
    (h : ReachVia g p a b) : b ∈ reachSet g p a := by
  obtain ⟨hpa, hrtg⟩ := h
  induction hrtg with
  | refl =>
    apply start_subset_reachSet
    unfold reachStart
    rw [if_pos hpa]
    exact Finset.mem_singleton_self a
  | tail hab hstep ih =>
    rename_i c d
    obtain ⟨hadj, hp⟩ := hstep
    rw [← stepF_reachSet_fix g p a]
    apply Finset.mem_union_right
    rcases List.any_eq_true.mp hadj with ⟨e, heg, hcond⟩
    simp only [Bool.and_eq_true] at hcond
    rcases hcond with ⟨h1, h2⟩
    have h1' : e.2.src = c := by simpa using h1
    have h2' : e.2.tgt = d := by simpa using h2
    apply List.mem_toFinset.mpr
    apply List.mem_map.mpr
    refine ⟨e, List.mem_filter.mpr ⟨heg, ?_⟩, h2'⟩
    simp only [Bool.and_eq_true]
    exact ⟨decide_eq_true (by rw [h1']; exact ih), by rw [h2']; exact hp⟩

/-- The main bridge: executable reachability agrees with the relational one. -/
theorem mem_reachSet (g : ControlFlowGraph) (p : Nat → Bool) (a b : Nat) :
    b ∈ reachSet g p a ↔ ReachVia g p a b :=
  ⟨fun h => reachSet_sound g p a b h, fun h => reachSet_complete g p a b h⟩

/-- A walk ends in a vertex satisfying the avoidance predicate. -/
lemma reachVia_endpoint {g : ControlFlowGraph} {p : Nat → Bool} {a b : Nat}
    (h : ReachVia g p a b) : p b = true := by
  obtain ⟨hpa, hrtg⟩ := h
  induction hrtg with
  | refl => exact hpa
  | tail _ hstep _ => exact hstep.2

/-- Weakening the avoidance predicate. -/
lemma reachVia_mono {g : ControlFlowGraph} {p q : Nat → Bool} {a b : Nat}
    (hpq : ∀ v, p v = true → q v = true) (h : ReachVia g p a b) :
    ReachVia g q a b := by
  obtain ⟨hpa, hrtg⟩ := h
  refine ⟨hpq a hpa, Relation.ReflTransGen.mono ?_ hrtg⟩
  intro x y hx
  exact ⟨hx.1, hpq _ hx.2⟩

/-! ### `dominates_set` -/

lemma mem_foldl_insertIf (f : Nat × AstNode → Bool) :
    ∀ (l : List (Nat × AstNode)) (init : Finset Nat) (x : Nat),
      (x ∈ l.foldl (fun ret p => if f p then insert p.1 ret else ret) init ↔
        x ∈ init ∨ ∃ p ∈ l, p.1 = x ∧ f p = true) := by
  intro l
  induction l with
  | nil => intro init x; simp
  | cons p l ih =>
    intro init x
    simp only [List.foldl_cons, ih, List.mem_cons]
    by_cases hf : f p
    · rw [if_pos hf]
      constructor
      · rintro (h | h)
        · rcases Finset.mem_insert.mp h with rfl | h
          · exact Or.inr ⟨p, Or.inl rfl, rfl, hf⟩
          · exact Or.inl h
        · rcases h with ⟨q, hq, rfl, hfq⟩
          exact Or.inr ⟨q, Or.inr hq, rfl, hfq⟩
      · rintro (h | h)
        · exact Or.inl (Finset.mem_insert_of_mem h)
        · rcases h with ⟨q, hq | hq, rfl, hfq⟩
          · exact Or.inl (hq ▸ Finset.mem_insert_self _ _)
          · exact Or.inr ⟨q, hq, rfl, hfq⟩
    · rw [if_neg hf]
      constructor
      · rintro (h | h)
        · exact Or.inl h
        · rcases h with ⟨q, hq, rfl, hfq⟩
          exact Or.inr ⟨q, Or.inr hq, rfl, hfq⟩
      · rintro (h | h)
        · exact Or.inl h
        · rcases h with ⟨q, hq | hq, rfl, hfq⟩
          · exact absurd hfq (by subst hq; simpa using hf)
          · exact Or.inr ⟨q, hq, rfl, hfq⟩

lemma dominatesB_eq_true {g : ControlFlowGraph} {d n : Nat} :
    dominatesB g d n = true ↔ Dominates g d n := by
  unfold dominatesB Dominates Reaches
  rw [Bool.and_eq_true, Bool.not_eq_true', decide_eq_true_iff, decide_eq_false_iff_not,
    mem_reachSet, mem_reachSet]

/-- Membership in `dominates_set`, semantically: exactly the graph nodes
that are reachable from the entry and whose dominator chain contains `h`
(which requires `h` itself to be a graph node). -/
lemma mem_dominates_set {g : ControlFlowGraph} {h n : Nat} :
    n ∈ dominates_set g h ↔
      n ∈ nodeIds g ∧ Reaches g g.entry n ∧ h ∈ nodeIds g ∧ Dominates g h n := by
  unfold dominates_set
  rw [mem_foldl_insertIf (fun p =>
    ((dominatorsOf g p.1).map (fun ds => ds.any (fun d => d == h))).getD false)]
  simp only [Finset.not_mem_empty, false_or]
  constructor
  · rintro ⟨p, hp, rfl, hcond⟩
    unfold dominatorsOf at hcond
    split at hcond
    · rename_i hreach
      simp only [Option.map_some', Option.getD_some, List.any_eq_true] at hcond
      rcases hcond with ⟨d, hd, hdh⟩
      rcases List.mem_filter.mp hd with ⟨hdmem, hdB⟩
      have hdh' : d = h := by simpa using hdh
      subst hdh'
      exact ⟨List.mem_map.mpr ⟨p, hp, rfl⟩,
        (mem_reachSet g _ _ _).mp hreach, hdmem, dominatesB_eq_true.mp hdB⟩
    · simp at hcond
  · rintro ⟨hn, hreach, hh, hdom⟩
    rcases List.mem_map.mp hn with ⟨p, hp, rfl⟩
    refine ⟨p, hp, rfl, ?_⟩
    unfold dominatorsOf
    rw [if_pos ((mem_reachSet g _ _ _).mpr hreach)]
    simp only [Option.map_some', Option.getD_some, List.any_eq_true]
    exact ⟨h, List.mem_filter.mpr ⟨hh, dominatesB_eq_true.mpr hdom⟩, by simp⟩

/-- Every node dominates itself (when reachable). -/
lemma dominates_self {g : ControlFlowGraph} {h : Nat}
    (hreach : Reaches g g.entry h) : Dominates g h h := by
  refine ⟨hreach, fun hvia => ?_⟩
  have := reachVia_endpoint hvia
  simp at this

/-! ### `iterOnes` and the region-successor test -/

lemma le_foldl_max (l : List Nat) : ∀ (init : Nat),
    init ≤ l.foldl max init ∧ ∀ a ∈ l, a ≤ l.foldl max init := by
  induction l with
  | nil => intro init; simp
  | cons b l ih =>
    intro init
    refine ⟨le_trans (le_max_left _ _) (ih (max init b)).1, ?_⟩
    intro a ha
    rcases List.mem_cons.mp ha with rfl | ha
    · exact le_trans (le_max_right _ _) (ih (max init a)).1
    · exact (ih (max init b)).2 a ha

lemma mem_iterOnes {g : ControlFlowGraph} {s : Finset Nat} {x : Nat} :
    x ∈ iterOnes g s ↔ x < nodeBound g ∧ x ∈ s := by
  unfold iterOnes
  rw [List.mem_filter, List.mem_range, decide_eq_true_iff]

lemma iterOnes_nodup (g : ControlFlowGraph) (s : Finset Nat) :
    (iterOnes g s).Nodup :=
  (List.nodup_range _).filter _

/-- Each member of a successor set is an edge target, hence below the
bitset capacity. -/
lemma successors_lt_nodeBound {g : ControlFlowGraph} {r : Finset Nat} {x : Nat}
    (hx : x ∈ successors_of_set g r) : x < nodeBound g := by
  unfold successors_of_set at hx
  rcases Finset.mem_biUnion.mp hx with ⟨ni, _, hmem⟩
  rcases List.mem_map.mp (List.mem_toFinset.mp hmem) with ⟨e, he, rfl⟩
  rcases List.mem_filter.mp he with ⟨heg, _⟩
  have hx' : e.2.tgt ∈ nodeIds g ++ g.edges.map (fun e => e.2.tgt) :=
    List.mem_append_right _ (List.mem_map.mpr ⟨e, heg, rfl⟩)
  have := (le_foldl_max (nodeIds g ++ g.edges.map (fun e => e.2.tgt)) 0).2 _ hx'
  unfold nodeBound
  omega

/-- C3.  For a node `n` (reached through the acyclic branch of the driver,
i.e. with no recorded back edges — the dispatch is `driverStep`), the
region test computes `region = dominates_set n`, skips `n` unless the
region has more than one node, and accepts a successor `s` — invoking the
SESE collapse with header `n` and successor `s` — if and only if
`successors_of_set(region) − region` is exactly the singleton `{s}`;
a count of zero or at least two makes the pass skip `n`. -/
theorem claim_C3 (g : ControlFlowGraph) (n : Nat) : ∀ s : Nat,
    seseDecision g n = some s ↔
      (1 < (dominates_set g n).card ∧
       successors_of_set g (dominates_set g n) \ dominates_set g n = {s}) := by
  intro s
  unfold seseDecision
  by_cases hc : 1 < (dominates_set g n).card
  · simp only [gt_iff_lt, hc, if_true, true_and]
    rcases hl : iterOnes g (successors_of_set g (dominates_set g n) \ dominates_set g n)
      with _ | ⟨succ, rest⟩
    · constructor
      · intro h; exact absurd h (by simp)
      · intro hdiff
        exfalso
        have hs : s ∈ successors_of_set g (dominates_set g n) \ dominates_set g n := by
          rw [hdiff]; exact Finset.mem_singleton_self s
        have hlt : s < nodeBound g :=
          successors_lt_nodeBound (Finset.mem_sdiff.mp hs).1
        have : s ∈ iterOnes g (successors_of_set g (dominates_set g n) \ dominates_set g n) :=
          mem_iterOnes.mpr ⟨hlt, hs⟩
        rw [hl] at this
        exact absurd this (List.not_mem_nil s)
    · rcases rest with _ | ⟨r, rest'⟩
      · simp only [List.isEmpty_nil, if_true, Option.some.injEq]
        have hsucc : succ ∈ successors_of_set g (dominates_set g n) \ dominates_set g n := by
          have hmem : succ ∈ iterOnes g
              (successors_of_set g (dominates_set g n) \ dominates_set g n) := by
            rw [hl]; exact List.mem_singleton_self succ
          exact (mem_iterOnes.mp hmem).2
        constructor
        · rintro rfl
          apply Finset.ext
          intro x
          simp only [Finset.mem_singleton]
          constructor
          · intro hx
            have hlt : x < nodeBound g := successors_lt_nodeBound (Finset.mem_sdiff.mp hx).1
            have hmem : x ∈ iterOnes g
                (successors_of_set g (dominates_set g n) \ dominates_set g n) :=
              mem_iterOnes.mpr ⟨hlt, hx⟩
            rw [hl] at hmem
            simpa using hmem
          · rintro rfl
            exact hsucc
        · intro hdiff
          rw [hdiff] at hsucc
          exact Finset.mem_singleton.mp hsucc
      · simp only [List.isEmpty_cons, if_false]
        constructor
        · intro h; exact absurd h (by simp)
        · intro hdiff
          exfalso
          have hmem : ∀ x ∈ succ :: r :: rest', x = s := by
            intro x hx
            have hmem' : x ∈ iterOnes g
                (successors_of_set g (dominates_set g n) \ dominates_set g n) := by
              rw [hl]; exact hx
            have hx' := (mem_iterOnes.mp hmem').2
            rw [hdiff] at hx'
            exact Finset.mem_singleton.mp hx'
          have hnd := iterOnes_nodup g
            (successors_of_set g (dominates_set g n) \ dominates_set g n)
          rw [hl] at hnd
          have h1 : succ = s := hmem succ (by simp)
          have h2 : r = s := hmem r (by simp)
          rcases List.nodup_cons.mp hnd with ⟨hne, _⟩
          exact hne (by rw [h1, h2]; simp)
  · simp only [gt_iff_lt, hc, if_false]
    constructor
    · intro h; exact absurd h (by simp)
    · rintro ⟨hc', _⟩; exact hc'.elim

/-- C6.  Every graph node `h` reachable from the entry is a member of its
own `dominates_set`. -/
theorem claim_C6 (g : ControlFlowGraph) (h : Nat) (h1 : h ∈ nodeIds g)
    (h2 : Reaches g g.entry h) : h ∈ dominates_set g h :=
  mem_dominates_set.mpr ⟨h1, h2, h1, dominates_self h2⟩

/-- Witness for C6 at a concrete input. -/
theorem claim_C6_witness : 0 ∈ dominates_set gOne 0 :=
  claim_C6 gOne 0 (by decide) ⟨rfl, Relation.ReflTransGen.refl⟩

/-- C10.  `dominates_set` is total — nodes for which the dominator oracle
returns nothing (`unwrap_or(false)`) merely contribute nothing — and its
result contains exactly the graph nodes reachable from the entry whose
dominator chain contains `h`. -/
theorem claim_C10 (g : ControlFlowGraph) (h n : Nat) :
    n ∈ dominates_set g h ↔
      n ∈ nodeIds g ∧ Reaches g g.entry n ∧ h ∈ nodeIds g ∧ Dominates g h n :=
  mem_dominates_set

/-! ### The DFS: state-shape invariants -/

@[simp] lemma examineEdge_discovered (e : Nat × EdgeData) (s : DfsState) :
    (examineEdge e s).discovered = s.discovered := rfl
@[simp] lemma examineEdge_finished (e : Nat × EdgeData) (s : DfsState) :
    (examineEdge e s).finished = s.finished := rfl
@[simp] lemma examineEdge_trace (e : Nat × EdgeData) (s : DfsState) :
    (examineEdge e s).podfs_trace = s.podfs_trace := rfl
@[simp] lemma examineEdge_backedges (e : Nat × EdgeData) (s : DfsState) :
    (examineEdge e s).backedges = s.backedges := rfl
@[simp] lemma examineEdge_examined (e : Nat × EdgeData) (s : DfsState) :
    (examineEdge e s).examined = s.examined ++
      [(e.1, decide (e.2.tgt ∈ s.discovered), decide (e.2.tgt ∈ s.finished))] := rfl

@[simp] lemma recordBackedge_discovered (e : Nat × EdgeData) (s : DfsState) :
    (recordBackedge e s).discovered = s.discovered := rfl
@[simp] lemma recordBackedge_finished (e : Nat × EdgeData) (s : DfsState) :
    (recordBackedge e s).finished = s.finished := rfl
@[simp] lemma recordBackedge_trace (e : Nat × EdgeData) (s : DfsState) :
    (recordBackedge e s).podfs_trace = s.podfs_trace := rfl
@[simp] lemma recordBackedge_backedges (e : Nat × EdgeData) (s : DfsState) :
    (recordBackedge e s).backedges = s.backedges ++ [(e.2.tgt, e.1)] := rfl
@[simp] lemma recordBackedge_examined (e : Nat × EdgeData) (s : DfsState) :
    (recordBackedge e s).examined = s.examined := rfl

@[simp] lemma discover_discovered (u : Nat) (s : DfsState) :
    (discover u s).discovered = insert u s.discovered := rfl
@[simp] lemma discover_finished (u : Nat) (s : DfsState) :
    (discover u s).finished = s.finished := rfl
@[simp] lemma discover_trace (u : Nat) (s : DfsState) :
    (discover u s).podfs_trace = s.podfs_trace := rfl
@[simp] lemma discover_backedges (u : Nat) (s : DfsState) :
    (discover u s).backedges = s.backedges := rfl
@[simp] lemma discover_examined (u : Nat) (s : DfsState) :
    (discover u s).examined = s.examined := rfl

@[simp] lemma finishNode_discovered (u : Nat) (s : DfsState) :
    (finishNode u s).discovered = s.discovered := rfl
@[simp] lemma finishNode_finished (u : Nat) (s : DfsState) :
    (finishNode u s).finished = insert u s.finished := rfl
@[simp] lemma finishNode_trace (u : Nat) (s : DfsState) :
    (finishNode u s).podfs_trace = s.podfs_trace ++ [u] := rfl
@[simp] lemma finishNode_backedges (u : Nat) (s : DfsState) :
    (finishNode u s).backedges = s.backedges := rfl
@[simp] lemma finishNode_examined (u : Nat) (s : DfsState) :
    (finishNode u s).examined = s.examined := rfl

lemma mem_edgesFrom {g : ControlFlowGraph} {u : Nat} {e : Nat × EdgeData}
    (he : e ∈ edgesFrom g u) : e ∈ g.edges ∧ e.2.src = u := by
  unfold edgesFrom at he
  rcases List.mem_filter.mp (List.mem_reverse.mp he) with ⟨h1, h2⟩
  exact ⟨h1, by simpa using h2⟩

lemma edgesFrom_complete {g : ControlFlowGraph} {u : Nat} {e : Nat × EdgeData}
    (he : e ∈ g.edges) (hs : e.2.src = u) : e ∈ edgesFrom g u := by
  unfold edgesFrom
  exact List.mem_reverse.mpr (List.mem_filter.mpr ⟨he, by simp [hs]⟩)

lemma adjB_of_edge {g : ControlFlowGraph} {e : Nat × EdgeData}
    (he : e ∈ g.edges) : adjB g e.2.src e.2.tgt = true := by
  unfold adjB
  exact List.any_eq_true.mpr ⟨e, he, by simp⟩

lemma dfsLe_refl (s : DfsState) : DfsLe s s :=
  ⟨Finset.Subset.refl _, Finset.Subset.refl _, ⟨[], by simp⟩, ⟨[], by simp⟩, ⟨[], by simp⟩⟩

lemma dfsLe_trans {s t r : DfsState} (h1 : DfsLe s t) (h2 : DfsLe t r) : DfsLe s r := by
  obtain ⟨a1, b1, ⟨t1, ht1⟩, ⟨u1, hu1⟩, ⟨v1, hv1⟩⟩ := h1
  obtain ⟨a2, b2, ⟨t2, ht2⟩, ⟨u2, hu2⟩, ⟨v2, hv2⟩⟩ := h2
  exact ⟨Finset.Subset.trans a1 a2, Finset.Subset.trans b1 b2,
    ⟨t1 ++ t2, by rw [ht2, ht1, List.append_assoc]⟩,
    ⟨u1 ++ u2, by rw [hu2, hu1, List.append_assoc]⟩,
    ⟨v1 ++ v2, by rw [hv2, hv1, List.append_assoc]⟩⟩

lemma dfsStep_refl (s : DfsState) : DfsStep s s :=
  ⟨dfsLe_refl s, fun _ h => Or.inl h, fun _ h1 h2 => ⟨h1, h2⟩⟩

lemma dfsStep_trans {s t r : DfsState} (h1 : DfsStep s t) (h2 : DfsStep t r) :
    DfsStep s r := by
  obtain ⟨le1, f1, d1⟩ := h1
  obtain ⟨le2, f2, d2⟩ := h2
  refine ⟨dfsLe_trans le1 le2, ?_, ?_⟩
  · intro n hn
    rcases f2 n hn with h | h
    · exact f1 n h
    · exact Or.inr (fun hc => h (le1.1 hc))
  · intro n hn1 hn2
    obtain ⟨hd, hf⟩ := d2 n hn1 hn2
    exact d1 n hd hf

lemma dfsStep_examineEdge (e : Nat × EdgeData) (s : DfsState) :
    DfsStep s (examineEdge e s) :=
  ⟨⟨Finset.Subset.refl _, Finset.Subset.refl _, ⟨[], by simp⟩, ⟨[], by simp⟩,
    ⟨[(e.1, decide (e.2.tgt ∈ s.discovered), decide (e.2.tgt ∈ s.finished))], rfl⟩⟩,
   fun _ h => Or.inl h, fun _ h1 h2 => ⟨h1, h2⟩⟩

lemma dfsStep_recordBackedge (e : Nat × EdgeData) (s : DfsState) :
    DfsStep s (recordBackedge e s) :=
  ⟨⟨Finset.Subset.refl _, Finset.Subset.refl _, ⟨[], by simp⟩, ⟨[(e.2.tgt, e.1)], rfl⟩,
    ⟨[], by simp⟩⟩, fun _ h => Or.inl h, fun _ h1 h2 => ⟨h1, h2⟩⟩

lemma go_edges_step {go : Nat → DfsState → Option DfsState}
    (Hgo : ∀ v s r, go v s = some r → DfsStep s r) :
    ∀ (es : List (Nat × EdgeData)) (s r : DfsState),
      go_edges go es s = some r → DfsStep s r := by
  intro es
  induction es with
  | nil =>
    intro s r h
    simp only [go_edges] at h
    cases h
    exact dfsStep_refl s
  | cons e rest ih =>
    intro s r h
    simp only [go_edges] at h
    split at h
    · split at h
      · exact dfsStep_trans (dfsStep_examineEdge e s) (ih _ _ h)
      · exact dfsStep_trans
          (dfsStep_trans (dfsStep_examineEdge e s) (dfsStep_recordBackedge e _)) (ih _ _ h)
    · cases hgo : go e.2.tgt (examineEdge e s) with
      | none => rw [hgo] at h; exact absurd h (by simp)
      | some s1 =>
        rw [hgo] at h
        exact dfsStep_trans (dfsStep_trans (dfsStep_examineEdge e s) (Hgo _ _ _ hgo))
          (ih _ _ h)

lemma go_rec_step (g : ControlFlowGraph) :
    ∀ (f u : Nat) (s r : DfsState), go_rec g f u s = some r → DfsStep s r := by
  intro f
  induction f with
  | zero => intro u s r h; exact absurd h (by simp [go_rec])
  | succ f ih =>
    intro u s r h
    simp only [go_rec] at h
    split at h
    · cases h; exact dfsStep_refl s
    · rename_i hu
      cases hge : go_edges (go_rec g f) (edgesFrom g u) (discover u s) with
      | none => rw [hge] at h; exact absurd h (by simp)
      | some s2 =>
        rw [hge] at h
        cases h
        have hstep : DfsStep (discover u s) s2 := go_edges_step ih _ _ _ hge
        obtain ⟨le2, f2, d2⟩ := hstep
        refine ⟨?_, ?_, ?_⟩
        · refine dfsLe_trans (t := discover u s) ?_ (dfsLe_trans le2 ?_)
          · exact ⟨Finset.subset_insert u s.discovered, Finset.Subset.refl _,
              ⟨[], by simp⟩, ⟨[], by simp⟩, ⟨[], by simp⟩⟩
          · exact ⟨Finset.Subset.refl _, Finset.subset_insert u s2.finished,
              ⟨[u], by simp⟩, ⟨[], by simp⟩, ⟨[], by simp⟩⟩
        · intro n hn
          simp only [finishNode_finished, Finset.mem_insert] at hn
          rcases hn with rfl | hn
          · exact Or.inr hu
          · rcases f2 n hn with hh | hh
            · exact Or.inl hh
            · simp only [discover_discovered, Finset.mem_insert] at hh
              push_neg at hh
              exact Or.inr hh.2
        · intro n hn1 hn2
          simp only [finishNode_discovered] at hn1
          simp only [finishNode_finished, Finset.mem_insert] at hn2
          push_neg at hn2
          obtain ⟨hnu, hn2'⟩ := hn2
          obtain ⟨hd, hf⟩ := d2 n hn1 hn2'
          simp only [discover_discovered, Finset.mem_insert] at hd
          rcases hd with rfl | hd
          · exact absurd rfl hnu
          · exact ⟨hd, by simpa using hf⟩

lemma go_rec_le (g : ControlFlowGraph) {f u : Nat} {s r : DfsState}
    (h : go_rec g f u s = some r) : DfsLe s r :=
  (go_rec_step g f u s r h).1

/-- The start node of a successful `go_rec` call ends up discovered. -/
lemma go_rec_discovers (g : ControlFlowGraph) :
    ∀ (f u : Nat) (s r : DfsState), go_rec g f u s = some r → u ∈ r.discovered := by
  intro f u s r h
  cases f with
  | zero => exact absurd h (by simp [go_rec])
  | succ f =>
    simp only [go_rec] at h
    split at h
    · rename_i hu; cases h; exact hu
    · cases hge : go_edges (go_rec g f) (edgesFrom g u) (discover u s) with
      | none => rw [hge] at h; exact absurd h (by simp)
      | some s2 =>
        rw [hge] at h
        cases h
        have hle := (go_edges_step (go_rec_step g f) _ _ _ hge).1
        exact hle.1 (Finset.mem_insert_self u s.discovered)

/-- A start node that was undiscovered ends up finished. -/
lemma go_rec_start_finished (g : ControlFlowGraph) :
    ∀ (f u : Nat) (s r : DfsState), go_rec g f u s = some r →
      u ∉ s.discovered → u ∈ r.finished := by
  intro f u s r h hu
  cases f with
  | zero => exact absurd h (by simp [go_rec])
  | succ f =>
    simp only [go_rec] at h
    rw [if_neg hu] at h
    cases hge : go_edges (go_rec g f) (edgesFrom g u) (discover u s) with
    | none => rw [hge] at h; exact absurd h (by simp)
    | some s2 =>
      rw [hge] at h
      cases h
      exact Finset.mem_insert_self u s2.finished

lemma go_edges_stinv {g : ControlFlowGraph} {f : Nat} :
    ∀ (es : List (Nat × EdgeData)) (s r : DfsState),
      go_edges (go_rec g f) es s = some r →
      (∀ v s' r', go_rec g f v s' = some r' → StInv s' → StInv r') →
      StInv s → StInv r := by
  intro es
  induction es with
  | nil =>
    intro s r h _ hs
    simp only [go_edges] at h
    cases h
    exact hs
  | cons e rest ih =>
    intro s r h Hgo hs
    simp only [go_edges] at h
    split at h
    · split at h
      · refine ih _ _ h Hgo ?_
        exact ⟨hs.1, hs.2.1, hs.2.2⟩
      · refine ih _ _ h Hgo ?_
        exact ⟨hs.1, hs.2.1, hs.2.2⟩
    · cases hgo : go_rec g f e.2.tgt (examineEdge e s) with
      | none => rw [hgo] at h; exact absurd h (by simp)
      | some s1 =>
        rw [hgo] at h
        refine ih _ _ h Hgo (Hgo _ _ _ hgo ⟨hs.1, hs.2.1, hs.2.2⟩)

lemma go_rec_stinv (g : ControlFlowGraph) :
    ∀ (f u : Nat) (s r : DfsState), go_rec g f u s = some r → StInv s → StInv r := by
  intro f
  induction f with
  | zero => intro u s r h _; exact absurd h (by simp [go_rec])
  | succ f ih =>
    intro u s r h hs
    simp only [go_rec] at h
    split at h
    · cases h; exact hs
    · rename_i hu
      cases hge : go_edges (go_rec g f) (edgesFrom g u) (discover u s) with
      | none => rw [hge] at h; exact absurd h (by simp)
      | some s2 =>
        rw [hge] at h
        cases h
        have hs1 : StInv (discover u s) :=
          ⟨Finset.Subset.trans hs.1 (Finset.subset_insert u s.discovered), hs.2.1, hs.2.2⟩
        have hs2 : StInv s2 := go_edges_stinv _ _ _ hge ih hs1
        have hstep : DfsStep (discover u s) s2 := go_edges_step (go_rec_step g f) _ _ _ hge
        have hufin : u ∉ s2.finished := by
          intro hc
          rcases hstep.2.1 u hc with hh | hh
          · exact hu (hs.1 hh)
          · exact hh (Finset.mem_insert_self u s.discovered)
        refine ⟨?_, ?_, ?_⟩
        · simp only [finishNode_finished, finishNode_discovered]
          intro n hn
          rcases Finset.mem_insert.mp hn with rfl | hn
          · exact hstep.1.1 (Finset.mem_insert_self n s.discovered)
          · exact hs2.1 hn
        · intro n
          simp only [finishNode_trace, finishNode_finished, List.mem_append,
            List.mem_singleton, Finset.mem_insert]
          rw [hs2.2.1 n]
          tauto
        · simp only [finishNode_trace]
          apply List.Nodup.append hs2.2.2 (List.nodup_singleton u)
          intro a ha hb
          rcases List.mem_singleton.mp hb with rfl
          exact hufin ((hs2.2.1 a).mp ha)

/-! ### The DFS: closedness and reachability of the discovered set -/

@[simp] lemma dfsInit_discovered (d : Finset Nat) : (dfsInit d).discovered = d := rfl
@[simp] lemma dfsInit_finished (d : Finset Nat) : (dfsInit d).finished = ∅ := rfl
@[simp] lemma dfsInit_trace (d : Finset Nat) : (dfsInit d).podfs_trace = [] := rfl
@[simp] lemma dfsInit_backedges (d : Finset Nat) : (dfsInit d).backedges = [] := rfl
@[simp] lemma dfsInit_examined (d : Finset Nat) : (dfsInit d).examined = [] := rfl

lemma rtg_avoid_mono {g : ControlFlowGraph} {D D' : Finset Nat} (hDD : D ⊆ D')
    {a b : Nat}
    (h : Relation.ReflTransGen (fun x y => adjB g x y = true ∧ y ∉ D') a b) :
    Relation.ReflTransGen (fun x y => adjB g x y = true ∧ y ∉ D) a b :=
  Relation.ReflTransGen.mono (fun _ _ hxy => ⟨hxy.1, fun hc => hxy.2 (hDD hc)⟩) h

lemma go_edges_closed (g : ControlFlowGraph) (f : Nat)
    (Hgo : ∀ (v : Nat) (s' r' : DfsState), go_rec g f v s' = some r' →
      ∀ n, n ∈ r'.finished → n ∈ s'.finished ∨
        ∀ e ∈ g.edges, e.2.src = n → e.2.tgt ∈ r'.discovered) :
    ∀ (es : List (Nat × EdgeData)) (s r : DfsState),
      go_edges (go_rec g f) es s = some r →
      ((∀ e ∈ es, e.2.tgt ∈ r.discovered) ∧
       (∀ n, n ∈ r.finished → n ∈ s.finished ∨
          ∀ e ∈ g.edges, e.2.src = n → e.2.tgt ∈ r.discovered)) := by
  intro es
  induction es with
  | nil =>
    intro s r h
    simp only [go_edges] at h
    cases h
    exact ⟨by simp, fun n hn => Or.inl hn⟩
  | cons e rest ih =>
    intro s r h
    simp only [go_edges] at h
    split at h
    · rename_i hd
      rcases (show ∃ s', (s'.discovered = s.discovered ∧ s'.finished = s.finished) ∧
          go_edges (go_rec g f) rest s' = some r from by
        split at h
        · exact ⟨examineEdge e s, ⟨rfl, rfl⟩, h⟩
        · exact ⟨recordBackedge e (examineEdge e s), ⟨rfl, rfl⟩, h⟩)
        with ⟨s', ⟨hsd, hsf⟩, h'⟩
      obtain ⟨h1, h2⟩ := ih _ _ h'
      have hmono : s'.discovered ⊆ r.discovered :=
        (go_edges_step (go_rec_step g f) _ _ _ h').1.1
      refine ⟨?_, ?_⟩
      · intro e' he'
        rcases List.mem_cons.mp he' with rfl | he'
        · exact hmono (by rw [hsd]; exact hd)
        · exact h1 e' he'
      · intro n hn
        rcases h2 n hn with hh | hh
        · exact Or.inl (by rwa [hsf] at hh)
        · exact Or.inr hh
    · rename_i hd
      cases hgo : go_rec g f e.2.tgt (examineEdge e s) with
      | none => rw [hgo] at h; exact absurd h (by simp)
      | some s1 =>
        rw [hgo] at h
        obtain ⟨h1, h2⟩ := ih _ _ h
        have hmono : s1.discovered ⊆ r.discovered :=
          (go_edges_step (go_rec_step g f) _ _ _ h).1.1
        refine ⟨?_, ?_⟩
        · intro e' he'
          rcases List.mem_cons.mp he' with rfl | he'
          · exact hmono (go_rec_discovers g f _ _ _ hgo)
          · exact h1 e' he'
        · intro n hn
          rcases h2 n hn with hh | hh
          · rcases Hgo _ _ _ hgo n hh with hh' | hh'
            · exact Or.inl (by simpa using hh')
            · exact Or.inr (fun e' he' hsrc => hmono (hh' e' he' hsrc))
          · exact Or.inr hh

/-- Every node finished during a call has all its out-edge targets
discovered in the final state. -/
lemma go_rec_closed (g : ControlFlowGraph) :
    ∀ (f u : Nat) (s r : DfsState), go_rec g f u s = some r →
      ∀ n, n ∈ r.finished → n ∈ s.finished ∨
        ∀ e ∈ g.edges, e.2.src = n → e.2.tgt ∈ r.discovered := by
  intro f
  induction f with
  | zero => intro u s r h; exact absurd h (by simp [go_rec])
  | succ f ih =>
    intro u s r h n hn
    simp only [go_rec] at h
    split at h
    · cases h; exact Or.inl hn
    · cases hge : go_edges (go_rec g f) (edgesFrom g u) (discover u s) with
      | none => rw [hge] at h; exact absurd h (by simp)
      | some s2 =>
        rw [hge] at h
        cases h
        obtain ⟨h1, h2⟩ := go_edges_closed g f ih _ _ _ hge
        simp only [finishNode_finished, Finset.mem_insert] at hn
        rcases hn with rfl | hn
        · refine Or.inr (fun e he hsrc => ?_)
          exact h1 e (edgesFrom_complete he hsrc)
        · rcases h2 n hn with hh | hh
          · exact Or.inl (by simpa using hh)
          · exact Or.inr hh

/-- Every node discovered during a call is reachable from the start node
along edges whose targets were all undiscovered relative to the call's
initial state. -/
lemma go_rec_reach (g : ControlFlowGraph) :
    ∀ (f u : Nat) (s r : DfsState), go_rec g f u s = some r →
      ∀ n, n ∈ r.discovered → n ∈ s.discovered ∨
        (u ∉ s.discovered ∧
         Relation.ReflTransGen (fun x y => adjB g x y = true ∧ y ∉ s.discovered) u n) := by
  intro f
  induction f with
  | zero => intro u s r h; exact absurd h (by simp [go_rec])
  | succ f ih =>
    intro u s r h n hn
    simp only [go_rec] at h
    split at h
    · cases h; exact Or.inl hn
    · rename_i hu
      cases hge : go_edges (go_rec g f) (edgesFrom g u) (discover u s) with
      | none => rw [hge] at h; exact absurd h (by simp)
      | some s2 =>
        rw [hge] at h
        cases h
        simp only [finishNode_discovered] at hn
        -- inner claim: the edge-loop only discovers nodes reachable from a
        -- target of one of its edges
        have hedges : ∀ (es : List (Nat × EdgeData)) (s' r' : DfsState),
            go_edges (go_rec g f) es s' = some r' →
            ∀ m, m ∈ r'.discovered → m ∈ s'.discovered ∨
              ∃ e ∈ es, e.2.tgt ∉ s'.discovered ∧
                Relation.ReflTransGen
                  (fun x y => adjB g x y = true ∧ y ∉ s'.discovered) e.2.tgt m := by
          intro es
          induction es with
          | nil =>
            intro s' r' h' m hm
            simp only [go_edges] at h'
            cases h'
            exact Or.inl hm
          | cons e rest ihe =>
            intro s' r' h' m hm
            simp only [go_edges] at h'
            split at h'
            · rcases (show ∃ s'', s''.discovered = s'.discovered ∧
                  go_edges (go_rec g f) rest s'' = some r' from by
                split at h'
                · exact ⟨examineEdge e s', rfl, h'⟩
                · exact ⟨recordBackedge e (examineEdge e s'), rfl, h'⟩)
                with ⟨s'', hsd, h''⟩
              rcases ihe _ _ h'' m hm with hh | ⟨e', he', hh1, hh2⟩
              · exact Or.inl (by rwa [hsd] at hh)
              · exact Or.inr ⟨e', List.mem_cons_of_mem e he',
                  by rwa [hsd] at hh1, by rwa [hsd] at hh2⟩
            · cases hgo : go_rec g f e.2.tgt (examineEdge e s') with
              | none => rw [hgo] at h'; exact absurd h' (by simp)
              | some s1 =>
                rw [hgo] at h'
                rcases ihe _ _ h' m hm with hh | ⟨e', he', hh1, hh2⟩
                · rcases ih _ _ _ hgo m hh with hh' | ⟨hh1', hh2'⟩
                  · exact Or.inl (by simpa using hh')
                  · exact Or.inr ⟨e, List.mem_cons_self e rest,
                      by simpa using hh1', by simpa using hh2'⟩
                · have hsub : s'.discovered ⊆ s1.discovered := by
                    have := (go_rec_step g f _ _ _ hgo).1.1
                    simpa using this
                  exact Or.inr ⟨e', List.mem_cons_of_mem e he',
                    fun hc => hh1 (hsub hc), rtg_avoid_mono hsub hh2⟩
        rcases hedges _ _ _ hge n hn with hh | ⟨e, he, hh1, hh2⟩
        · simp only [discover_discovered, Finset.mem_insert] at hh
          rcases hh with rfl | hh
          · exact Or.inr ⟨hu, Relation.ReflTransGen.refl⟩
          · exact Or.inl hh
        · refine Or.inr ⟨hu, ?_⟩
          have hadj : adjB g u e.2.tgt = true := by
            obtain ⟨heg, hsrc⟩ := mem_edgesFrom he
            have := adjB_of_edge heg
            rwa [hsrc] at this
          have htgt : e.2.tgt ∉ s.discovered := by
            simp only [discover_discovered, Finset.mem_insert] at hh1
            push_neg at hh1
            exact hh1.2
          refine Relation.ReflTransGen.head ⟨hadj, htgt⟩ ?_
          exact rtg_avoid_mono (Finset.subset_insert u s.discovered) hh2

/-! ### The DFS: fuel sufficiency and the runner -/

lemma go_edges_suff (g : ControlFlowGraph) (U : Finset Nat) (f : Nat)
    (Hgo : ∀ (v : Nat) (s : DfsState), v ∈ U → 1 + (U \ s.discovered).card ≤ f →
      ∃ r, go_rec g f v s = some r) :
    ∀ (es : List (Nat × EdgeData)) (s : DfsState), (∀ e ∈ es, e.2.tgt ∈ U) →
      1 + (U \ s.discovered).card ≤ f →
      ∃ r, go_edges (go_rec g f) es s = some r := by
  intro es
  induction es with
  | nil => intro s _ _; exact ⟨s, rfl⟩
  | cons e rest ih =>
    intro s hes hf
    by_cases hd : e.2.tgt ∈ s.discovered
    · by_cases hfin : e.2.tgt ∈ s.finished
      · obtain ⟨r, hr⟩ := ih (examineEdge e s) (fun e' he' => hes e' (List.mem_cons_of_mem e he'))
          (by simpa using hf)
        exact ⟨r, by simp only [go_edges]; rw [if_pos hd, if_pos hfin]; exact hr⟩
      · obtain ⟨r, hr⟩ := ih (recordBackedge e (examineEdge e s))
          (fun e' he' => hes e' (List.mem_cons_of_mem e he')) (by simpa using hf)
        exact ⟨r, by simp only [go_edges]; rw [if_pos hd, if_neg hfin]; exact hr⟩
    · obtain ⟨s1, hs1⟩ := Hgo e.2.tgt (examineEdge e s)
        (hes e (List.mem_cons_self e rest)) (by simpa using hf)
      have hsub : s.discovered ⊆ s1.discovered := by
        have := (go_rec_step g f _ _ _ hs1).1.1
        simpa using this
      have hle : (U \ s1.discovered).card ≤ (U \ s.discovered).card :=
        Finset.card_le_card (Finset.sdiff_subset_sdiff (Finset.Subset.refl U) hsub)
      obtain ⟨r, hr⟩ := ih s1 (fun e' he' => hes e' (List.mem_cons_of_mem e he')) (by omega)
      exact ⟨r, by simp only [go_edges]; rw [if_neg hd, hs1]; exact hr⟩

lemma go_rec_suff (g : ControlFlowGraph) (U : Finset Nat)
    (hU : ∀ e ∈ g.edges, e.2.tgt ∈ U) :
    ∀ (f u : Nat) (s : DfsState), u ∈ U → 1 + (U \ s.discovered).card ≤ f →
      ∃ r, go_rec g f u s = some r := by
  intro f
  induction f with
  | zero => intro u s _ hf; exact absurd hf (by omega)
  | succ f ih =>
    intro u s hu hf
    by_cases hd : u ∈ s.discovered
    · exact ⟨s, by simp only [go_rec]; rw [if_pos hd]⟩
    · have hmem : u ∈ U \ s.discovered := Finset.mem_sdiff.mpr ⟨hu, hd⟩
      have hbound : 1 + (U \ (discover u s).discovered).card ≤ f := by
        have herase : U \ insert u s.discovered = (U \ s.discovered).erase u := by
          ext x
          simp only [Finset.mem_sdiff, Finset.mem_insert, Finset.mem_erase]
          tauto
        have hpos : 0 < (U \ s.discovered).card := Finset.card_pos.mpr ⟨u, hmem⟩
        rw [discover_discovered, herase, Finset.card_erase_of_mem hmem]
        omega
      obtain ⟨s2, hs2⟩ := go_edges_suff g U f ih (edgesFrom g u) (discover u s)
        (fun e he => hU e (mem_edgesFrom he).1) hbound
      exact ⟨finishNode u s2, by simp only [go_rec]; rw [if_neg hd, hs2]⟩

/-- `dfsFuel` always suffices: the runner computes the real run. -/
lemma runDfs_eq (g : ControlFlowGraph) (u : Nat) (d : Finset Nat) :
    go_rec g (dfsFuel g u) u (dfsInit d) = some (runDfs g u d) := by
  have hU : ∀ e ∈ g.edges, e.2.tgt ∈ insert u (edgeTargets g) := by
    intro e he
    exact Finset.mem_insert_of_mem (List.mem_toFinset.mpr (List.mem_map.mpr ⟨e, he, rfl⟩))
  have hbound : 1 + ((insert u (edgeTargets g)) \ (dfsInit d).discovered).card ≤ dfsFuel g u := by
    unfold dfsFuel
    have := Finset.card_le_card (Finset.sdiff_subset
      (s := insert u (edgeTargets g)) (t := (dfsInit d).discovered))
    omega
  obtain ⟨r, hr⟩ := go_rec_suff g (insert u (edgeTargets g)) hU (dfsFuel g u) u (dfsInit d)
    (Finset.mem_insert_self u _) hbound
  unfold runDfs
  rw [hr]
  rfl

lemma runDfs_stinv (g : ControlFlowGraph) (u : Nat) (d : Finset Nat) :
    StInv (runDfs g u d) := by
  refine go_rec_stinv g _ _ _ _ (runDfs_eq g u d) ?_
  exact ⟨by simp, by simp, by simp⟩

/-- The post-order trace of a run contains exactly the nodes reachable from
the start node without touching the initially-discovered set. -/
lemma mem_runDfs_trace (g : ControlFlowGraph) (u : Nat) (d : Finset Nat) (n : Nat) :
    n ∈ (runDfs g u d).podfs_trace ↔
      (u ∉ d ∧ Relation.ReflTransGen (fun x y => adjB g x y = true ∧ y ∉ d) u n) := by
  have hrun := runDfs_eq g u d
  have hst : StInv (runDfs g u d) := runDfs_stinv g u d
  rw [hst.2.1 n]
  constructor
  · intro hn
    have hnd : n ∉ d := by
      rcases (go_rec_step g _ _ _ _ hrun).2.1 n hn with h | h
      · simp at h
      · simpa using h
    have hdisc : n ∈ (runDfs g u d).discovered := hst.1 hn
    rcases go_rec_reach g _ _ _ _ hrun n hdisc with h | h
    · exact absurd (by simpa using h) hnd
    · exact ⟨by simpa using h.1, by simpa using h.2⟩
  · rintro ⟨hud, hrtg⟩
    induction hrtg with
    | refl => exact go_rec_start_finished g _ _ _ _ hrun (by simpa using hud)
    | tail hab hstep ihstep =>
      rename_i b c
      obtain ⟨hadj, hcd⟩ := hstep
      have hb : b ∈ (runDfs g u d).finished := ihstep
      rcases go_rec_closed g _ _ _ _ hrun b hb with hh | hh
      · simp at hh
      · rcases List.any_eq_true.mp hadj with ⟨e, heg, hcond⟩
        simp only [Bool.and_eq_true, beq_iff_eq] at hcond
        have hcdisc : c ∈ (runDfs g u d).discovered := by
          have := hh e heg hcond.1
          rwa [hcond.2] at this
        by_contra hcfin
        obtain ⟨hd', hf'⟩ := (go_rec_step g _ _ _ _ hrun).2.2 c hcdisc hcfin
        exact hcd (by simpa using hd')

/-- C8.  The post-order trace of `do_dfs` contains a node if and only if it
is reachable from the entry, and contains no node twice. -/
theorem claim_C8 (g : ControlFlowGraph) :
    (∀ n, n ∈ (do_dfs g).podfs_trace ↔ Reaches g g.entry n) ∧
    (do_dfs g).podfs_trace.Nodup := by
  constructor
  · intro n
    show n ∈ (runDfs g g.entry ∅).podfs_trace ↔ Reaches g g.entry n
    rw [mem_runDfs_trace]
    unfold Reaches ReachVia
    constructor
    · rintro ⟨_, hrtg⟩
      exact ⟨rfl, Relation.ReflTransGen.mono (fun x y h => ⟨h.1, rfl⟩) hrtg⟩
    · rintro ⟨_, hrtg⟩
      refine ⟨Finset.not_mem_empty _, Relation.ReflTransGen.mono
        (fun x y h => ⟨h.1, Finset.not_mem_empty y⟩) hrtg⟩
  · exact (runDfs_stinv g g.entry ∅).2.2

/-! ### The DFS: back-edge recording and the examined-edge log -/

lemma lookup_eq_some_of_mem {β : Type} {l : List (Nat × β)}
    (hnd : (l.map Prod.fst).Nodup) {a : Nat} {b : β} (hmem : (a, b) ∈ l) :
    l.lookup a = some b := by
  induction l with
  | nil => exact absurd hmem (List.not_mem_nil _)
  | cons p l ih =>
    simp only [List.map_cons, List.nodup_cons] at hnd
    rcases List.mem_cons.mp hmem with heq | hmem'
    · rw [← heq]
      simp [List.lookup]
    · have hne : (a == p.1) = false := by
        apply beq_eq_false_iff_ne.mpr
        intro hc
        exact hnd.1 (hc ▸ List.mem_map.mpr ⟨(a, b), hmem', rfl⟩)
      cases p with
      | mk k v =>
        simp only [List.lookup]
        simp only at hne
        rw [hne]
        exact ih hnd.2 hmem'

lemma mem_of_lookup_eq_some {β : Type} {l : List (Nat × β)} {a : Nat} {b : β}
    (h : l.lookup a = some b) : (a, b) ∈ l := by
  induction l with
  | nil => simp [List.lookup] at h
  | cons p l ih =>
    cases p with
    | mk k v =>
      simp only [List.lookup] at h
      rcases hak : (a == k) with _ | _
      · rw [hak] at h
        exact List.mem_cons_of_mem _ (ih h)
      · rw [hak] at h
        cases h
        have : a = k := beq_iff_eq.mp hak
        subst this
        exact List.mem_cons_self _ _

lemma key_unique {β : Type} {l : List (Nat × β)} (hnd : (l.map Prod.fst).Nodup)
    {a : Nat} {b c : β} (h1 : (a, b) ∈ l) (h2 : (a, c) ∈ l) : b = c := by
  have hb := lookup_eq_some_of_mem hnd h1
  have hc := lookup_eq_some_of_mem hnd h2
  rw [hb] at hc
  exact Option.some.inj hc

lemma edgesFrom_ids_nodup {g : ControlFlowGraph}
    (hids : (g.edges.map Prod.fst).Nodup) (u : Nat) :
    ((edgesFrom g u).map Prod.fst).Nodup := by
  unfold edgesFrom
  rw [List.map_reverse, List.nodup_reverse]
  exact List.Nodup.sublist (List.Sublist.map Prod.fst (List.filter_sublist _)) hids

/-- The edge indices examined by a call are owned by nodes the call
discovered. -/
lemma go_rec_fresh_examined (g : ControlFlowGraph) :
    ∀ (f u : Nat) (s r : DfsState), go_rec g f u s = some r →
      ∀ id ∈ r.examined.map Prod.fst, id ∈ s.examined.map Prod.fst ∨
        ∃ ed, (id, ed) ∈ g.edges ∧ ed.src ∈ r.discovered ∧ ed.src ∉ s.discovered := by
  intro f
  induction f with
  | zero => intro u s r h; exact absurd h (by simp [go_rec])
  | succ f ih =>
    intro u s r h id hid
    simp only [go_rec] at h
    split at h
    · cases h; exact Or.inl hid
    · rename_i hu
      cases hge : go_edges (go_rec g f) (edgesFrom g u) (discover u s) with
      | none => rw [hge] at h; exact absurd h (by simp)
      | some s2 =>
        rw [hge] at h
        cases h
        -- inner claim over the edge list
        have hedges : ∀ (es : List (Nat × EdgeData)) (s' r' : DfsState),
            go_edges (go_rec g f) es s' = some r' →
            ∀ id ∈ r'.examined.map Prod.fst,
              id ∈ s'.examined.map Prod.fst ∨ id ∈ es.map Prod.fst ∨
              ∃ ed, (id, ed) ∈ g.edges ∧ ed.src ∈ r'.discovered ∧ ed.src ∉ s'.discovered := by
          intro es
          induction es with
          | nil =>
            intro s' r' h' id' hid'
            simp only [go_edges] at h'
            cases h'
            exact Or.inl hid'
          | cons e rest ihe =>
            intro s' r' h' id' hid'
            simp only [go_edges] at h'
            split at h'
            · rcases (show ∃ s'', s''.discovered = s'.discovered ∧
                  s''.examined = s'.examined ++
                    [(e.1, decide (e.2.tgt ∈ s'.discovered), decide (e.2.tgt ∈ s'.finished))] ∧
                  go_edges (go_rec g f) rest s'' = some r' from by
                split at h'
                · exact ⟨examineEdge e s', rfl, rfl, h'⟩
                · exact ⟨recordBackedge e (examineEdge e s'), rfl, rfl, h'⟩)
                with ⟨s'', hsd, hse, h''⟩
              rcases ihe _ _ h'' id' hid' with hh | hh | ⟨ed, hed, hin, hout⟩
              · rw [hse, List.map_append] at hh
                rcases List.mem_append.mp hh with hh' | hh'
                · exact Or.inl hh'
                · simp only [List.map_cons, List.map_nil, List.mem_singleton] at hh'
                  exact Or.inr (Or.inl (by simp [hh']))
              · exact Or.inr (Or.inl (List.mem_cons_of_mem _ hh))
              · exact Or.inr (Or.inr ⟨ed, hed, hin, by rwa [hsd] at hout⟩)
            · cases hgo : go_rec g f e.2.tgt (examineEdge e s') with
              | none => rw [hgo] at h'; exact absurd h' (by simp)
              | some s1 =>
                rw [hgo] at h'
                have hmono1 : s1.discovered ⊆ r'.discovered :=
                  (go_edges_step (go_rec_step g f) _ _ _ h').1.1
                have hmono0 : s'.discovered ⊆ s1.discovered := by
                  have := (go_rec_step g f _ _ _ hgo).1.1
                  simpa using this
                rcases ihe _ _ h' id' hid' with hh | hh | ⟨ed, hed, hin, hout⟩
                · rcases ih _ _ _ hgo id' hh with hh' | ⟨ed, hed, hin, hout⟩
                  · rw [examineEdge_examined, List.map_append] at hh'
                    rcases List.mem_append.mp hh' with hh'' | hh''
                    · exact Or.inl hh''
                    · simp only [List.map_cons, List.map_nil, List.mem_singleton] at hh''
                      exact Or.inr (Or.inl (by simp [hh'']))
                  · exact Or.inr (Or.inr ⟨ed, hed, hmono1 hin, by simpa using hout⟩)
                · exact Or.inr (Or.inl (List.mem_cons_of_mem _ hh))
                · exact Or.inr (Or.inr ⟨ed, hed, hin, fun hc => hout (hmono0 hc)⟩)
        rcases hedges _ _ _ hge id hid with hh | hh | ⟨ed, hed, hin, hout⟩
        · exact Or.inl (by simpa using hh)
        · rcases List.mem_map.mp hh with ⟨e, he, rfl⟩
          obtain ⟨heg, hsrc⟩ := mem_edgesFrom he
          refine Or.inr ⟨e.2, by rwa [Prod.mk.eta], ?_, by rwa [hsrc]⟩
          have hle := (go_edges_step (go_rec_step g f) _ _ _ hge).1.1
          rw [hsrc]
          simp only [finishNode_discovered]
          exact hle (by simp)
        · refine Or.inr ⟨ed, hed, by simpa using hin, ?_⟩
          intro hc
          exact hout (by simp [hc])

/-- `ExInv` is preserved by the DFS. -/
lemma go_rec_exinv (g : ControlFlowGraph) (hids : (g.edges.map Prod.fst).Nodup) :
    ∀ (f u : Nat) (s r : DfsState), go_rec g f u s = some r → ExInv g s → ExInv g r := by
  intro f
  induction f with
  | zero => intro u s r h; exact absurd h (by simp [go_rec])
  | succ f ih =>
    intro u s r h hex
    simp only [go_rec] at h
    split at h
    · cases h; exact hex
    · rename_i hu
      cases hge : go_edges (go_rec g f) (edgesFrom g u) (discover u s) with
      | none => rw [hge] at h; exact absurd h (by simp)
      | some s2 =>
        rw [hge] at h
        cases h
        -- inner claim over the edge list
        have hedges : ∀ (es : List (Nat × EdgeData)) (s' r' : DfsState),
            go_edges (go_rec g f) es s' = some r' →
            (∀ e ∈ es, e ∈ g.edges ∧ e.2.src = u) → u ∈ s'.discovered →
            (es.map Prod.fst).Nodup →
            (∀ e ∈ es, e.1 ∉ s'.examined.map Prod.fst) →
            ExInv g s' → ExInv g r' := by
          intro es
          induction es with
          | nil =>
            intro s' r' h' _ _ _ _ hex'
            simp only [go_edges] at h'
            cases h'
            exact hex'
          | cons e rest ihe =>
            intro s' r' h' hes hu' hnd hfresh hex'
            simp only [List.map_cons, List.nodup_cons] at hnd
            have hee : e ∈ g.edges := (hes e (List.mem_cons_self e rest)).1
            have heu : e.2.src = u := (hes e (List.mem_cons_self e rest)).2
            have hex0 : ExInv g (examineEdge e s') := by
              constructor
              · simp only [examineEdge_examined, List.map_append, List.map_cons,
                  List.map_nil]
                rw [List.nodup_append]
                refine ⟨hex'.1, List.nodup_singleton _, ?_⟩
                intro a ha hb
                rcases List.mem_singleton.mp hb with rfl
                exact hfresh e (List.mem_cons_self e rest) ha
              · intro id hid
                simp only [examineEdge_examined, List.map_append, List.map_cons,
                  List.map_nil] at hid
                rcases List.mem_append.mp hid with hid' | hid'
                · obtain ⟨ed, hed, hsrc⟩ := hex'.2 id hid'
                  exact ⟨ed, hed, by simpa using hsrc⟩
                · rcases List.mem_singleton.mp hid' with rfl
                  refine ⟨e.2, by rwa [Prod.mk.eta], ?_⟩
                  rw [heu]
                  simpa using hu'
            simp only [go_edges] at h'
            split at h'
            · rcases (show ∃ s'', s''.discovered = (examineEdge e s').discovered ∧
                  s''.examined = (examineEdge e s').examined ∧
                  go_edges (go_rec g f) rest s'' = some r' ∧
                  (ExInv g (examineEdge e s') → ExInv g s'') from by
                split at h'
                · exact ⟨examineEdge e s', rfl, rfl, h', fun hx => hx⟩
                · exact ⟨recordBackedge e (examineEdge e s'), rfl, rfl, h', fun hx => hx⟩)
                with ⟨s'', hsd, hse, h'', hxpres⟩
              refine ihe _ _ h''
                (fun e' he' => hes e' (List.mem_cons_of_mem e he'))
                (by rw [hsd]; simpa using hu') hnd.2 ?_ (hxpres hex0)
              intro e' he'
              rw [hse]
              simp only [examineEdge_examined, List.map_append, List.map_cons,
                List.map_nil]
              intro hc
              rcases List.mem_append.mp hc with hc' | hc'
              · exact hfresh e' (List.mem_cons_of_mem e he') hc'
              · rcases List.mem_singleton.mp hc' with hc''
                exact hnd.1 (hc'' ▸ List.mem_map.mpr ⟨e', he', rfl⟩)
            · cases hgo : go_rec g f e.2.tgt (examineEdge e s') with
              | none => rw [hgo] at h'; exact absurd h' (by simp)
              | some s1 =>
                rw [hgo] at h'
                have hex1 : ExInv g s1 := ih _ _ _ hgo hex0
                have hmono : (examineEdge e s').discovered ⊆ s1.discovered :=
                  (go_rec_step g f _ _ _ hgo).1.1
                refine ihe _ _ h'
                  (fun e' he' => hes e' (List.mem_cons_of_mem e he'))
                  (hmono (by simpa using hu')) hnd.2 ?_ hex1
                intro e' he' hc
                rcases go_rec_fresh_examined g f _ _ _ hgo e'.1 hc with hh | ⟨ed, hed, _, hout⟩
                · simp only [examineEdge_examined, List.map_append, List.map_cons,
                    List.map_nil] at hh
                  rcases List.mem_append.mp hh with hh' | hh'
                  · exact hfresh e' (List.mem_cons_of_mem e he') hh'
                  · rcases List.mem_singleton.mp hh' with hh''
                    exact hnd.1 (hh'' ▸ List.mem_map.mpr ⟨e', he', rfl⟩)
                · have hed' : ed = e'.2 := by
                    have he'm : (e'.1, e'.2) ∈ g.edges := by
                      rw [Prod.mk.eta]
                      exact (hes e' (List.mem_cons_of_mem e he')).1
                    exact key_unique hids hed he'm
                  apply hout
                  rw [hed', (hes e' (List.mem_cons_of_mem e he')).2]
                  simpa using hu'
        have hcall := hedges (edgesFrom g u) (discover u s) s2 hge
          (fun e he => mem_edgesFrom he)
          (Finset.mem_insert_self u _)
          (edgesFrom_ids_nodup hids u) ?_ ?_
        · exact ⟨hcall.1, fun id hid => by
            obtain ⟨ed, hed, hsrc⟩ := hcall.2 id hid
            exact ⟨ed, hed, by simpa using hsrc⟩⟩
        · intro e he hc
          simp only [discover_examined] at hc
          obtain ⟨ed, hed, hsrc⟩ := hex.2 e.1 hc
          have hed' : ed = e.2 := by
            have hem : (e.1, e.2) ∈ g.edges := by
              rw [Prod.mk.eta]
              exact (mem_edgesFrom he).1
            exact key_unique hids hed hem
          rw [hed', (mem_edgesFrom he).2] at hsrc
          exact hu hsrc
        · exact ⟨by simpa using hex.1, fun id hid => by
            obtain ⟨ed, hed, hsrc⟩ := hex.2 id (by simpa using hid)
            exact ⟨ed, hed, Finset.mem_insert_of_mem hsrc⟩⟩

/-- `BeInv` is preserved by the DFS. -/
lemma go_rec_beinv (g : ControlFlowGraph) (hids : (g.edges.map Prod.fst).Nodup) :
    ∀ (f u : Nat) (s r : DfsState), go_rec g f u s = some r → BeInv g s → BeInv g r := by
  intro f
  induction f with
  | zero => intro u s r h; exact absurd h (by simp [go_rec])
  | succ f ih =>
    intro u s r h hbe
    simp only [go_rec] at h
    split at h
    · cases h; exact hbe
    · cases hge : go_edges (go_rec g f) (edgesFrom g u) (discover u s) with
      | none => rw [hge] at h; exact absurd h (by simp)
      | some s2 =>
        rw [hge] at h
        cases h
        -- inner claim over the edge list
        have hedges : ∀ (es : List (Nat × EdgeData)) (s' r' : DfsState),
            go_edges (go_rec g f) es s' = some r' → (∀ e ∈ es, e ∈ g.edges) →
            BeInv g s' → BeInv g r' := by
          intro es
          induction es with
          | nil =>
            intro s' r' h' _ hbe'
            simp only [go_edges] at h'
            cases h'
            exact hbe'
          | cons e rest ihe =>
            intro s' r' h' hes hbe'
            have hee : e ∈ g.edges := hes e (List.mem_cons_self e rest)
            have hlk : g.edges.lookup e.1 = some e.2 :=
              lookup_eq_some_of_mem hids (by rw [Prod.mk.eta]; exact hee)
            simp only [go_edges] at h'
            unfold BeInv at hbe'
            by_cases hd : e.2.tgt ∈ s'.discovered
            · rw [if_pos hd] at h'
              by_cases hfin : e.2.tgt ∈ s'.finished
              · rw [if_pos hfin] at h'
                refine ihe _ _ h' (fun e' he' => hes e' (List.mem_cons_of_mem e he')) ?_
                unfold BeInv
                simp only [examineEdge_backedges, examineEdge_examined,
                  List.filterMap_append, hbe']
                simp [hd, hfin]
              · rw [if_neg hfin] at h'
                refine ihe _ _ h' (fun e' he' => hes e' (List.mem_cons_of_mem e he')) ?_
                unfold BeInv
                simp only [recordBackedge_backedges, recordBackedge_examined,
                  examineEdge_backedges, examineEdge_examined, List.filterMap_append, hbe']
                simp [hd, hfin, hlk]
            · rw [if_neg hd] at h'
              cases hgo : go_rec g f e.2.tgt (examineEdge e s') with
              | none => rw [hgo] at h'; exact absurd h' (by simp)
              | some s1 =>
                rw [hgo] at h'
                have hbe0 : BeInv g (examineEdge e s') := by
                  unfold BeInv
                  simp only [examineEdge_backedges, examineEdge_examined,
                    List.filterMap_append, hbe']
                  simp [hd]
                exact ihe _ _ h' (fun e' he' => hes e' (List.mem_cons_of_mem e he'))
                  (ih _ _ _ hgo hbe0)
        have hinit : BeInv g (discover u s) := by
          have hbe0 := hbe
          unfold BeInv at hbe0 ⊢
          simpa using hbe0
        have hs2 : BeInv g s2 := hedges _ _ _ hge (fun e he => (mem_edgesFrom he).1) hinit
        have hs2' := hs2
        unfold BeInv at hs2' ⊢
        simpa using hs2'

/-- C4.  With distinct edge indices, `do_dfs` records an edge under key `v`
exactly when `v` is the edge's target and, at the moment the edge was
examined (per the ghost log), `v` was discovered but not finished; an edge
whose target was already finished when examined is never recorded. -/
theorem claim_C4 (g : ControlFlowGraph) (hids : (g.edges.map Prod.fst).Nodup) :
    (∀ v eid, (v, eid) ∈ (do_dfs g).backedges ↔
      ((eid, true, false) ∈ (do_dfs g).examined ∧
       ∃ ed, (eid, ed) ∈ g.edges ∧ ed.tgt = v)) ∧
    (∀ eid b, (eid, b, true) ∈ (do_dfs g).examined →
      ∀ v, (v, eid) ∉ (do_dfs g).backedges) := by
  have hrun := runDfs_eq g g.entry ∅
  have hbe : BeInv g (do_dfs g) :=
    go_rec_beinv g hids _ _ _ _ hrun (by unfold BeInv; simp)
  have hex : ExInv g (do_dfs g) :=
    go_rec_exinv g hids _ _ _ _ hrun (by unfold ExInv; simp)
  have hmain : ∀ v eid, (v, eid) ∈ (do_dfs g).backedges ↔
      ((eid, true, false) ∈ (do_dfs g).examined ∧
       ∃ ed, (eid, ed) ∈ g.edges ∧ ed.tgt = v) := by
    intro v eid
    rw [hbe, List.mem_filterMap]
    constructor
    · rintro ⟨t, ht, hsome⟩
      rcases t with ⟨id, dflag, fflag⟩
      simp only at hsome
      split at hsome
      · rename_i hcond
        simp only [Bool.and_eq_true, Bool.not_eq_true'] at hcond
        obtain ⟨hd, hf⟩ := hcond
        subst hd hf
        rcases Option.map_eq_some'.mp hsome with ⟨ed, hlk, heq⟩
        injection heq with h1 h2
        subst h2
        exact ⟨ht, ed, mem_of_lookup_eq_some hlk, h1⟩
      · exact absurd hsome (by simp)
    · rintro ⟨hmem, ed, hed, htgt⟩
      refine ⟨(eid, true, false), hmem, ?_⟩
      simp [lookup_eq_some_of_mem hids hed, htgt]
  refine ⟨hmain, ?_⟩
  intro eid b hmem v hv
  have hv' := (hmain v eid).mp hv
  have : (b, true) = (true, false) := by
    have := key_unique (β := Bool × Bool) hex.1 hmem hv'.1
    exact this
  simp at this

/-- Witness for C4 at a concrete input: the cycle `0 → 1 → 0`, whose edge 1
(`1 → 0`) is recorded as a back edge keyed by node 0. -/
theorem claim_C4_witness :
    (((0 : Nat), (1 : Nat)) ∈ (do_dfs gCycle).backedges ↔
      (((1 : Nat), true, false) ∈ (do_dfs gCycle).examined ∧
       ∃ ed, ((1 : Nat), ed) ∈ gCycle.edges ∧ ed.tgt = 0)) ∧
    ((0 : Nat), (1 : Nat)) ∈ (do_dfs gCycle).backedges :=
  ⟨(claim_C4 gCycle (by decide)).1 0 1, by decide⟩

/-! ### The driver and the condition simplifier -/

/-- C1.  `structure_whole` never produces an `AstNode` and never reports a
typed "stuck" result: every run ends in a panic — on any input that
survives the driver loop it is the `unimplemented!()` at line 86 (shown
concretely for the one-block graph). -/
theorem claim_C1 :
    (∀ g : ControlFlowGraph, ∃ p, structure_whole g = Except.error p) ∧
    structure_whole gOne = Except.error Panic.unimplementedPanic := by
  constructor
  · intro g
    unfold structure_whole
    cases h : driverLoop (do_dfs g) (do_dfs g).podfs_trace g with
    | error p => exact ⟨p, rfl⟩
    | ok g' => exact ⟨Panic.unimplementedPanic, rfl⟩
  · rfl

/-- C9.  An `And`/`Or` with exactly one operand simplifies to (the
simplification of) that operand, and the reaching-condition synthesizer of
the source only ever emits `reaching_cond`, which contains no zero-child
`And`/`Or`. -/
theorem claim_C9 :
    (∀ c, simplifyCondition (Condition.And [c]) = simplifyCondition c) ∧
    (∀ c, simplifyCondition (Condition.Or [c]) = simplifyCondition c) ∧
    noEmptyConn reaching_cond = true := by
  refine ⟨?_, ?_, rfl⟩
  · intro c
    simp [simplifyCondition, simplifyList]
  · intro c
    simp [simplifyCondition, simplifyList]

/-! ### The acyclic SESE collapse -/

@[simp] lemma setPayload_edges (g : ControlFlowGraph) (n : Nat) (a : AstNode) :
    (setPayload g n a).edges = g.edges := rfl
@[simp] lemma setPayload_entry (g : ControlFlowGraph) (n : Nat) (a : AstNode) :
    (setPayload g n a).entry = g.entry := rfl
@[simp] lemma addEdge_edges (g : ControlFlowGraph) (u v : Nat) (c : SimpleCondition) :
    (addEdge g u v c).edges = g.edges ++ [(freshEdgeId g, ⟨u, v, c⟩)] := rfl
@[simp] lemma addEdge_nodes (g : ControlFlowGraph) (u v : Nat) (c : SimpleCondition) :
    (addEdge g u v c).nodes = g.nodes := rfl
@[simp] lemma addEdge_entry (g : ControlFlowGraph) (u v : Nat) (c : SimpleCondition) :
    (addEdge g u v c).entry = g.entry := rfl
@[simp] lemma removeNode_edges (g : ControlFlowGraph) (n : Nat) :
    (removeNode g n).1.edges =
      g.edges.filter (fun e => !(e.2.src == n) && !(e.2.tgt == n)) := rfl
@[simp] lemma removeNode_nodes (g : ControlFlowGraph) (n : Nat) :
    (removeNode g n).1.nodes = g.nodes.filter (fun p => !(p.1 == n)) := rfl
@[simp] lemma removeNode_entry (g : ControlFlowGraph) (n : Nat) :
    (removeNode g n).1.entry = g.entry := rfl

lemma filter_map_fst_update (l : List (Nat × AstNode)) (n : Nat) (a : AstNode)
    (q : Nat → Bool) :
    ((l.map (fun p => if p.1 = n then (p.1, a) else p)).filter
        (fun p => q p.1)).map Prod.fst
      = (l.filter (fun p => q p.1)).map Prod.fst := by
  induction l with
  | nil => simp
  | cons p l ih =>
    have hfst : ((if p.1 = n then (p.1, a) else p) : Nat × AstNode).1 = p.1 := by
      split <;> rfl
    simp only [List.map_cons, List.filter_cons, hfst]
    by_cases hq : q p.1 = true
    · simp only [hq, if_true, List.map_cons, hfst, ih]
    · simp only [hq, Bool.false_eq_true, if_false, ih]

lemma setPayload_ids (g : ControlFlowGraph) (n : Nat) (a : AstNode) :
    (setPayload g n a).nodes.map Prod.fst = g.nodes.map Prod.fst := by
  show (g.nodes.map (fun p => if p.1 = n then (p.1, a) else p)).map Prod.fst
      = g.nodes.map Prod.fst
  generalize g.nodes = l
  induction l with
  | nil => simp
  | cons p l ih =>
    have hfst : ((if p.1 = n then (p.1, a) else p) : Nat × AstNode).1 = p.1 := by
      split <;> rfl
    simp only [List.map_cons, hfst, ih]

lemma keepEdge_cons (header n : Nat) (l : List Nat) (e : Nat × EdgeData) :
    keepEdge header (n :: l) e =
      (((n == header) || (!(e.2.src == n) && !(e.2.tgt == n))) && keepEdge header l e) := by
  simp [keepEdge, List.all_cons]

lemma keepNode_cons (header n : Nat) (l : List Nat) (i : Nat) :
    keepNode header (n :: l) i =
      (((n == header) || !(i == n)) && keepNode header l i) := by
  simp [keepNode, List.all_cons]

lemma length_filter_lt {α : Type} {l : List α} {p : α → Bool} {a : α}
    (ha : a ∈ l) (hp : p a = false) : (l.filter p).length < l.length := by
  induction l with
  | nil => cases ha
  | cons b l ih =>
    rcases List.mem_cons.mp ha with rfl | ha'
    · rw [List.filter_cons, hp]
      have := List.length_filter_le p l
      simp only [Bool.false_eq_true, if_false, List.length_cons]
      omega
    · rw [List.filter_cons]
      by_cases hb : p b = true
      · rw [if_pos hb]
        have := ih ha'
        simp only [List.length_cons]
        omega
      · simp only [hb, Bool.false_eq_true, if_false, List.length_cons]
        have := ih ha'
        omega

/-- What the collapse loop does to the graph: filters out every node in `l`
other than the header together with all edges incident to them (payload
changes do not move node or edge identities). -/
lemma collapseGo_ok (header : Nat) :
    ∀ (l : List Nat) (g : ControlFlowGraph) (acc : List AstNode)
      (g' : ControlFlowGraph) (repl : List AstNode),
      collapseGo header l g acc = Except.ok (g', repl) →
      g'.edges = g.edges.filter (keepEdge header l) ∧
      g'.nodes.map Prod.fst =
        (g.nodes.filter (fun p => keepNode header l p.1)).map Prod.fst ∧
      g'.entry = g.entry := by
  intro l
  induction l with
  | nil =>
    intro g acc g' repl h
    simp only [collapseGo] at h
    cases h
    refine ⟨?_, ?_, rfl⟩
    · symm
      have hcongr : List.filter (keepEdge header []) g.edges
          = List.filter (fun _ => true) g.edges :=
        List.filter_congr (fun e _ => by simp [keepEdge])
      rw [hcongr, List.filter_true]
    · symm
      have hcongr : List.filter (fun p => keepNode header [] p.1) g.nodes
          = List.filter (fun _ => true) g.nodes :=
        List.filter_congr (fun p _ => by simp [keepNode])
      rw [hcongr, List.filter_true]
  | cons n l ih =>
    intro g acc g' repl h
    simp only [collapseGo] at h
    split at h
    · rename_i hn
      subst hn
      cases hp : payloadOf g n with
      | none => rw [hp] at h; exact absurd h (by simp)
      | some p =>
        rw [hp] at h
        obtain ⟨h1, h2, h3⟩ := ih _ _ _ _ h
        refine ⟨?_, ?_, by simpa using h3⟩
        · rw [h1, setPayload_edges]
          apply List.filter_congr
          intro e _
          rw [keepEdge_cons]
          simp
        · rw [h2]
          have hupd := filter_map_fst_update g.nodes n (AstNode.Seq [])
            (fun i => keepNode n l i)
          calc ((setPayload g n (AstNode.Seq [])).nodes.filter
                  (fun q => keepNode n l q.1)).map Prod.fst
              = (g.nodes.filter (fun q => keepNode n l q.1)).map Prod.fst := hupd
            _ = (g.nodes.filter (fun q => keepNode n (n :: l) q.1)).map Prod.fst := by
                congr 1
                apply List.filter_congr
                intro q _
                rw [keepNode_cons]
                simp
    · rename_i hn
      cases hp : payloadOf g n with
      | none => rw [hp] at h; exact absurd h (by simp)
      | some p =>
        rw [hp] at h
        obtain ⟨h1, h2, h3⟩ := ih _ _ _ _ h
        refine ⟨?_, ?_, by simpa using h3⟩
        · rw [h1, removeNode_edges, List.filter_filter]
          apply List.filter_congr
          intro e _
          rw [keepEdge_cons]
          have hnh : (n == header) = false := beq_eq_false_iff_ne.mpr hn
          rw [hnh]
          simp [Bool.and_comm]
        · rw [h2, removeNode_nodes, List.filter_filter]
          congr 1
          apply List.filter_congr
          intro q _
          rw [keepNode_cons]
          have hnh : (n == header) = false := beq_eq_false_iff_ne.mpr hn
          rw [hnh]
          simp [Bool.and_comm]

lemma sese_decompose {g : ControlFlowGraph} {h s : Nat} {g' : ControlFlowGraph}
    (hok : structure_acyclic_sese_region g h s = Except.ok g') :
    ∃ g1 repl,
      collapseGo h (regionPostorder g h s).reverse g [] = Except.ok (g1, repl) ∧
      g' = addEdge (setPayload g1 h (AstNode.Seq repl)) h s "" := by
  unfold structure_acyclic_sese_region at hok
  cases hc : collapseGo h (regionPostorder g h s).reverse g [] with
  | error p => rw [hc] at hok; exact absurd hok (by simp)
  | ok pr =>
    rcases pr with ⟨g1, repl⟩
    rw [hc] at hok
    dsimp only at hok
    cases hp : payloadOf g1 h with
    | none => rw [hp] at hok; exact absurd hok (by simp)
    | some p =>
      rw [hp] at hok
      cases hok
      exact ⟨g1, repl, rfl, rfl⟩

/-- Bridge between the fold's edge filter and the interior of the region. -/
lemma keepEdge_eq_interior (g : ControlFlowGraph) (h s : Nat) (e : Nat × EdgeData) :
    keepEdge h (regionPostorder g h s).reverse e =
      (interiorOf g h s).all (fun n => !(e.2.src == n) && !(e.2.tgt == n)) := by
  rcases hlhs : keepEdge h (regionPostorder g h s).reverse e with _ | _
  · symm
    rw [Bool.eq_false_iff]
    intro hall
    rw [Bool.eq_false_iff] at hlhs
    apply hlhs
    simp only [keepEdge, List.all_eq_true, List.mem_reverse]
    intro n hn
    by_cases hnh : n = h
    · simp [hnh]
    · have hin : n ∈ interiorOf g h s := by
        unfold interiorOf
        refine List.mem_filter.mpr ⟨hn, ?_⟩
        simp [hnh]
      have := List.all_eq_true.mp hall n hin
      simp only [Bool.or_eq_true]
      exact Or.inr this
  · symm
    simp only [List.all_eq_true]
    intro n hn
    unfold interiorOf at hn
    rcases List.mem_filter.mp hn with ⟨hn', hnh⟩
    have hnh' : n ≠ h := by simpa using hnh
    have := List.all_eq_true.mp hlhs n (List.mem_reverse.mpr hn')
    simp only [Bool.or_eq_true] at this
    rcases this with hc | hc
    · exact absurd (beq_iff_eq.mp hc) hnh'
    · exact hc

/-- C2 (amended).  After a collapse, the edges are exactly: every original
edge having no endpoint among the removed interior nodes (in particular all
edges between outside nodes and all edges into the header), followed by one
fresh edge `header → successor`.  Edges incident to a removed interior
node — the strictly internal edges, but also boundary-crossing exit edges
such as `interior → successor` — are gone. -/
theorem claim_C2 (g : ControlFlowGraph) (h s : Nat) (g' : ControlFlowGraph)
    (hok : structure_acyclic_sese_region g h s = Except.ok g') :
    ∃ eid, g'.edges =
      g.edges.filter (fun e => (interiorOf g h s).all
        (fun n => !(e.2.src == n) && !(e.2.tgt == n))) ++ [(eid, ⟨h, s, ""⟩)] := by
  obtain ⟨g1, repl, hc, rfl⟩ := sese_decompose hok
  obtain ⟨h1, _, _⟩ := collapseGo_ok h _ g [] g1 repl hc
  refine ⟨freshEdgeId (setPayload g1 h (AstNode.Seq repl)), ?_⟩
  simp only [addEdge_edges, setPayload_edges]
  rw [h1]
  congr 1
  apply List.filter_congr
  intro e _
  exact keepEdge_eq_interior g h s e

/-- Witness for C2 (amended) at the straight-line graph. -/
theorem claim_C2_witness :
    ∃ eid, gPathAfter.edges =
      gPath.edges.filter (fun e => (interiorOf gPath 0 2).all
        (fun n => !(e.2.src == n) && !(e.2.tgt == n))) ++ [(eid, ⟨0, 2, ""⟩)] :=
  claim_C2 gPath 0 2 gPathAfter (by rfl)

/-- Counterexample to C2 as stated: collapsing the SESE region `{0, 1}` of
the straight line `0 → 1 → 2` (header 0, successor 2) changes the multiset
of boundary-crossing edges from `{(1, 2)}` to `{(0, 2)}` — the exit edge of
the removed interior node 1 is replaced by a new edge from the header. -/
theorem claim_C2_counterexample :
    structure_acyclic_sese_region gPath 0 2 = Except.ok gPathAfter ∧
    regionPostorder gPath 0 2 = [1, 0] ∧
    crossingMultiset gPath pathRegion = {(1, 2)} ∧
    crossingMultiset gPathAfter pathRegion = {(0, 2)} ∧
    crossingMultiset gPathAfter pathRegion ≠ crossingMultiset gPath pathRegion :=
  ⟨rfl, rfl, rfl, rfl, by decide⟩

/-- C5.  On the two-branch diamond, the collapse guards every region node —
the header's old payload included — with the placeholder condition
`Simple("")` (the `// XXX` reaching-condition), producing the three-element
`Seq[Cond("", H), Cond("", B), Cond("", A)]` (the `DfsPostOrder` emits
`[1, 2, 0]`, so its reverse processes H, B, A) rather than
`Seq[Cond(c, A, None), Cond(!c, B, None)]`; the single remaining edge to
the successor does materialise. -/
theorem claim_C5 :
    structure_acyclic_sese_region gDiamond 0 3 = Except.ok gDiamondAfter ∧
    regionPostorder gDiamond 0 3 = [1, 2, 0] ∧
    payloadOf gDiamondAfter 0 = some (AstNode.Seq
      [AstNode.Cond (Condition.Simple "") (AstNode.BasicBlock "H") none,
       AstNode.Cond (Condition.Simple "") (AstNode.BasicBlock "B") none,
       AstNode.Cond (Condition.Simple "") (AstNode.BasicBlock "A") none]) ∧
    gDiamondAfter.edges = [(1, ⟨0, 3, ""⟩)] :=
  ⟨rfl, rfl, rfl, rfl⟩

/-! ### Node-count monotonicity of the collapse (C7) -/

lemma setPayload_length (g : ControlFlowGraph) (n : Nat) (a : AstNode) :
    (setPayload g n a).nodes.length = g.nodes.length := by
  show (g.nodes.map _).length = g.nodes.length
  rw [List.length_map]

/-- The node count after a collapse is that of the original nodes filtered
through the removal of the non-header region nodes. -/
lemma sese_nodes_lengths {g : ControlFlowGraph} {h s : Nat} {g' : ControlFlowGraph}
    (hok : structure_acyclic_sese_region g h s = Except.ok g') :
    g'.nodes.length =
      (g.nodes.filter (fun p => keepNode h (regionPostorder g h s).reverse p.1)).length := by
  obtain ⟨g1, repl, hc, rfl⟩ := sese_decompose hok
  obtain ⟨_, h2, _⟩ := collapseGo_ok h _ g [] g1 repl hc
  have hlen : g1.nodes.length =
      (g.nodes.filter (fun p => keepNode h (regionPostorder g h s).reverse p.1)).length := by
    have := congrArg List.length h2
    simpa [List.length_map] using this
  show (setPayload g1 h (AstNode.Seq repl)).nodes.length = _
  rw [setPayload_length]
  exact hlen

lemma sese_nodes_le {g : ControlFlowGraph} {h s : Nat} {g' : ControlFlowGraph}
    (hok : structure_acyclic_sese_region g h s = Except.ok g') :
    g'.nodes.length ≤ g.nodes.length := by
  rw [sese_nodes_lengths hok]
  exact List.length_filter_le _ _

lemma loopBranchStep_ok {g : ControlFlowGraph} {x : Nat} {bes : List Nat}
    {g1 : ControlFlowGraph} (h : loopBranchStep g x bes = Except.ok g1) : g1 = g := by
  unfold loopBranchStep at h
  split at h
  · exact absurd h (by simp)
  · split at h
    · exact absurd h (by simp)
    · exact (Except.ok.inj h).symm

lemma acyclicStep_nodes_le {g : ControlFlowGraph} {x : Nat} {g1 : ControlFlowGraph}
    (h : acyclicStep g x = Except.ok g1) : g1.nodes.length ≤ g.nodes.length := by
  unfold acyclicStep at h
  cases hdec : seseDecision g x with
  | some succ => rw [hdec] at h; exact sese_nodes_le h
  | none => rw [hdec] at h; cases h; exact le_refl _

lemma driverLoop_nodes_le (st : DfsState) :
    ∀ (l : List Nat) (g gfin : ControlFlowGraph),
      driverLoop st l g = Except.ok gfin → gfin.nodes.length ≤ g.nodes.length := by
  intro l
  induction l with
  | nil =>
    intro g gfin h
    simp only [driverLoop] at h
    cases h
    exact le_refl _
  | cons x l ih =>
    intro g gfin h
    simp only [driverLoop] at h
    cases hstep : driverStep st g x with
    | error p => rw [hstep] at h; exact absurd h (by simp)
    | ok g1 =>
      rw [hstep] at h
      have h1 : g1.nodes.length ≤ g.nodes.length := by
        unfold driverStep at hstep
        cases hbe : backedgesFor st x with
        | some bes =>
          rw [hbe] at hstep
          exact le_of_eq (congrArg (fun t => t.nodes.length) (loopBranchStep_ok hstep))
        | none =>
          rw [hbe] at hstep
          exact acyclicStep_nodes_le hstep
      exact le_trans (ih _ _ h) h1

/-! ### The dominator path argument (C7) -/

/-- Splitting a closure walk at the last visit of `x`: either the walk
avoids (entering) `x` altogether, or it reaches `x` and its remainder from
`x` avoids `x`. -/
lemma rtg_split {α : Type} (r : α → α → Prop) (x : α) {a b : α}
    (h : Relation.ReflTransGen r a b) :
    Relation.ReflTransGen (fun u v => r u v ∧ v ≠ x) a b ∨
    (Relation.ReflTransGen r a x ∧
     Relation.ReflTransGen (fun u v => r u v ∧ v ≠ x) x b) := by
  induction h with
  | refl => exact Or.inl Relation.ReflTransGen.refl
  | tail hab hstep ih =>
    rename_i c d
    by_cases hdx : d = x
    · subst hdx
      rcases ih with ih' | ⟨ih1, _⟩
      · refine Or.inr ⟨?_, Relation.ReflTransGen.refl⟩
        exact (Relation.ReflTransGen.mono (fun u v hv => hv.1) ih').tail hstep
      · exact Or.inr ⟨ih1, Relation.ReflTransGen.refl⟩
    · rcases ih with ih' | ⟨ih1, ih2⟩
      · exact Or.inl (ih'.tail ⟨hstep, hdx⟩)
      · exact Or.inr ⟨ih1, ih2.tail ⟨hstep, hdx⟩⟩

/-- If `n` dominates `m` but not `s` (and `s` is reachable), then `m` is
reachable from `n` without touching `s`: the suffix after the last visit of
`n` of any entry-to-`m` walk can be chosen to avoid `s`, for otherwise an
entry-to-`m` walk avoiding `n` would exist. -/
lemma dominator_path {g : ControlFlowGraph} {n m s : Nat}
    (hdm : Dominates g n m) (hns : n ≠ s)
    (hrs : Reaches g g.entry s) (hnds : ¬ Dominates g n s) :
    ReachVia g (fun v => decide (v ≠ s)) n m := by
  have hks : ReachVia g (fun v => decide (v ≠ n)) g.entry s := by
    by_contra hc
    exact hnds ⟨hrs, hc⟩
  have hen : g.entry ≠ n := of_decide_eq_true hks.1
  obtain ⟨hrm, hnotvia⟩ := hdm
  obtain ⟨_, hrtg⟩ := hrm
  rcases rtg_split (StepRel g (fun _ => true)) n hrtg with hleft | ⟨_, hsuffix⟩
  · exfalso
    apply hnotvia
    refine ⟨decide_eq_true hen, Relation.ReflTransGen.mono ?_ hleft⟩
    intro u v hv
    exact ⟨hv.1.1, decide_eq_true hv.2⟩
  · rcases rtg_split (fun u v => StepRel g (fun _ => true) u v ∧ v ≠ n) s hsuffix
      with hleft2 | ⟨hto_s, hfrom_s⟩
    · refine ⟨decide_eq_true hns, Relation.ReflTransGen.mono ?_ hleft2⟩
      intro u v hv
      exact ⟨hv.1.1.1, decide_eq_true hv.2⟩
    · exfalso
      apply hnotvia
      refine ⟨decide_eq_true hen, ?_⟩
      have h2 : Relation.ReflTransGen (StepRel g (fun v => decide (v ≠ n))) s m := by
        refine Relation.ReflTransGen.mono ?_ hfrom_s
        intro u v hv
        exact ⟨hv.1.1.1, decide_eq_true hv.1.2⟩
      exact hks.2.trans h2

lemma mem_successors_of_set {g : ControlFlowGraph} {r : Finset Nat} {x : Nat} :
    x ∈ successors_of_set g r ↔ ∃ e ∈ g.edges, e.2.src ∈ r ∧ e.2.tgt = x := by
  unfold successors_of_set
  constructor
  · intro hx
    rcases Finset.mem_biUnion.mp hx with ⟨ni, hni, hmem⟩
    rcases List.mem_map.mp (List.mem_toFinset.mp hmem) with ⟨e, he, rfl⟩
    rcases List.mem_filter.mp he with ⟨heg, hsrc⟩
    refine ⟨e, heg, ?_, rfl⟩
    rw [beq_iff_eq.mp hsrc]
    exact hni
  · rintro ⟨e, heg, hsrc, rfl⟩
    refine Finset.mem_biUnion.mpr ⟨e.2.src, hsrc, ?_⟩
    exact List.mem_toFinset.mpr
      (List.mem_map.mpr ⟨e, List.mem_filter.mpr ⟨heg, by simp⟩, rfl⟩)

lemma dfsPostOrderGo_suff (g : ControlFlowGraph) (U : Finset Nat)
    (hU : ∀ e ∈ g.edges, e.2.tgt ∈ U) :
    ∀ (fuel : Nat) (stack : List Nat) (disc fin : Finset Nat) (acc : List Nat),
      (∀ x ∈ stack, x ∈ U) →
      stack.length + (U \ disc).card * (1 + g.edges.length) < fuel →
      ∃ t, dfsPostOrderGo g fuel stack disc fin acc = some t := by
  intro fuel
  induction fuel with
  | zero => intro stack disc fin acc _ hb; exact absurd hb (Nat.not_lt_zero _)
  | succ fuel ih =>
    intro stack disc fin acc hst hb
    cases stack with
    | nil => exact ⟨(acc, disc, fin), by simp [dfsPostOrderGo]⟩
    | cons nx rest =>
      by_cases hd : nx ∈ disc
      · by_cases hf : nx ∈ fin
        · obtain ⟨t, ht⟩ := ih rest disc fin acc
            (fun x hx => hst x (List.mem_cons_of_mem nx hx))
            (by simp only [List.length_cons] at hb; omega)
          exact ⟨t, by simp only [dfsPostOrderGo]; rw [if_pos hd, if_pos hf]; exact ht⟩
        · obtain ⟨t, ht⟩ := ih rest disc (insert nx fin) (acc ++ [nx])
            (fun x hx => hst x (List.mem_cons_of_mem nx hx))
            (by simp only [List.length_cons] at hb; omega)
          exact ⟨t, by simp only [dfsPostOrderGo]; rw [if_pos hd, if_neg hf]; exact ht⟩
      · have hnxU : nx ∈ U := hst nx (List.mem_cons_self nx rest)
        have hmem : nx ∈ U \ disc := Finset.mem_sdiff.mpr ⟨hnxU, hd⟩
        have hpos : 0 < (U \ disc).card := Finset.card_pos.mpr ⟨nx, hmem⟩
        have herase : U \ insert nx disc = (U \ disc).erase nx := by
          ext x
          simp only [Finset.mem_sdiff, Finset.mem_insert, Finset.mem_erase]
          tauto
        have hcard : (U \ insert nx disc).card = (U \ disc).card - 1 := by
          rw [herase, Finset.card_erase_of_mem hmem]
        have hpush_len : (pushList g nx (insert nx disc)).length ≤ g.edges.length := by
          unfold pushList
          rw [List.length_reverse]
          calc (((edgesFrom g nx).map (fun e => e.2.tgt)).filter
                  (fun v => decide (v ∉ insert nx disc))).length
              ≤ ((edgesFrom g nx).map (fun e => e.2.tgt)).length :=
                List.length_filter_le _ _
            _ = (edgesFrom g nx).length := List.length_map _ _
            _ ≤ g.edges.length := by
                unfold edgesFrom
                rw [List.length_reverse]
                exact List.length_filter_le _ _
        obtain ⟨c', hc'⟩ : ∃ c', (U \ disc).card = c' + 1 :=
          ⟨(U \ disc).card - 1, by omega⟩
        obtain ⟨t, ht⟩ := ih (pushList g nx (insert nx disc) ++ nx :: rest)
          (insert nx disc) fin acc
          (fun x hx => by
            rcases List.mem_append.mp hx with hx' | hx'
            · unfold pushList at hx'
              rcases List.mem_filter.mp (List.mem_reverse.mp hx') with ⟨hx'', _⟩
              rcases List.mem_map.mp hx'' with ⟨e, he, rfl⟩
              exact hU e (mem_edgesFrom he).1
            · exact hst x hx')
          (by
            have hmul : (U \ disc).card * (1 + g.edges.length)
                = c' * (1 + g.edges.length) + (1 + g.edges.length) := by
              rw [hc', Nat.succ_mul]
            rw [List.length_append, List.length_cons, hcard, hc', Nat.add_sub_cancel]
            rw [hmul] at hb
            simp only [List.length_cons] at hb
            generalize c' * (1 + g.edges.length) = t at hb ⊢
            omega)
        exact ⟨t, by simp only [dfsPostOrderGo]; rw [if_neg hd]; exact ht⟩

lemma dfsPostOrderGo_mono (g : ControlFlowGraph) :
    ∀ (fuel : Nat) (stack : List Nat) (disc fin : Finset Nat) (acc tr : List Nat)
      (df ff : Finset Nat),
      dfsPostOrderGo g fuel stack disc fin acc = some (tr, df, ff) →
      disc ⊆ df ∧ fin ⊆ ff ∧ (∀ v, v ∈ tr ↔ v ∈ acc ∨ (v ∈ ff ∧ v ∉ fin)) := by
  intro fuel
  induction fuel with
  | zero =>
    intro stack disc fin acc tr df ff h
    exact absurd h (by simp [dfsPostOrderGo])
  | succ fuel ih =>
    intro stack disc fin acc tr df ff h
    simp only [dfsPostOrderGo] at h
    cases stack with
    | nil =>
      cases h
      refine ⟨Finset.Subset.refl _, Finset.Subset.refl _, fun v => ?_⟩
      constructor
      · exact fun hv => Or.inl hv
      · rintro (hv | ⟨h1, h2⟩)
        · exact hv
        · exact absurd h1 h2
    | cons nx rest =>
      dsimp only at h
      by_cases hd : nx ∈ disc
      · rw [if_pos hd] at h
        by_cases hf : nx ∈ fin
        · rw [if_pos hf] at h
          exact ih _ _ _ _ _ _ _ h
        · rw [if_neg hf] at h
          obtain ⟨h1, h2, h3⟩ := ih _ _ _ _ _ _ _ h
          have hnxff : nx ∈ ff := h2 (Finset.mem_insert_self nx fin)
          refine ⟨h1, Finset.Subset.trans (Finset.subset_insert nx fin) h2, fun v => ?_⟩
          rw [h3 v]
          simp only [List.mem_append, List.mem_singleton, Finset.mem_insert]
          constructor
          · rintro ((hv | rfl) | ⟨hv1, hv2⟩)
            · exact Or.inl hv
            · exact Or.inr ⟨hnxff, hf⟩
            · push_neg at hv2
              exact Or.inr ⟨hv1, hv2.2⟩
          · rintro (hv | ⟨hv1, hv2⟩)
            · exact Or.inl (Or.inl hv)
            · by_cases hvnx : v = nx
              · exact Or.inl (Or.inr hvnx)
              · exact Or.inr ⟨hv1, by push_neg; exact ⟨hvnx, hv2⟩⟩
      · rw [if_neg hd] at h
        obtain ⟨h1, h2, h3⟩ := ih _ _ _ _ _ _ _ h
        exact ⟨Finset.Subset.trans (Finset.subset_insert nx disc) h1, h2, h3⟩

lemma dfsPostOrderGo_stack_disc (g : ControlFlowGraph) :
    ∀ (fuel : Nat) (stack : List Nat) (disc fin : Finset Nat) (acc tr : List Nat)
      (df ff : Finset Nat),
      dfsPostOrderGo g fuel stack disc fin acc = some (tr, df, ff) →
      ∀ w ∈ stack, w ∈ df := by
  intro fuel
  induction fuel with
  | zero =>
    intro stack disc fin acc tr df ff h
    exact absurd h (by simp [dfsPostOrderGo])
  | succ fuel ih =>
    intro stack disc fin acc tr df ff h
    simp only [dfsPostOrderGo] at h
    cases stack with
    | nil => intro w hw; cases hw
    | cons nx rest =>
      dsimp only at h
      by_cases hd : nx ∈ disc
      · have hrec : ∃ fin' acc', dfsPostOrderGo g fuel rest disc fin' acc'
            = some (tr, df, ff) := by
          rw [if_pos hd] at h
          by_cases hf : nx ∈ fin
          · rw [if_pos hf] at h; exact ⟨fin, acc, h⟩
          · rw [if_neg hf] at h; exact ⟨insert nx fin, acc ++ [nx], h⟩
        obtain ⟨fin', acc', h'⟩ := hrec
        intro w hw
        rcases List.mem_cons.mp hw with rfl | hw'
        · exact (dfsPostOrderGo_mono g _ _ _ _ _ _ _ _ h').1 hd
        · exact ih _ _ _ _ _ _ _ h' w hw'
      · rw [if_neg hd] at h
        intro w hw
        rcases List.mem_cons.mp hw with rfl | hw'
        · exact (dfsPostOrderGo_mono g _ _ _ _ _ _ _ _ h).1
            (Finset.mem_insert_self w disc)
        · exact ih _ _ _ _ _ _ _ h w
            (List.mem_append_right _ (List.mem_cons_of_mem nx hw'))

lemma dfsPostOrderGo_closed (g : ControlFlowGraph) :
    ∀ (fuel : Nat) (stack : List Nat) (disc fin : Finset Nat) (acc tr : List Nat)
      (df ff : Finset Nat),
      dfsPostOrderGo g fuel stack disc fin acc = some (tr, df, ff) →
      ∀ v ∈ df, v ∈ disc ∨ ∀ e ∈ g.edges, e.2.src = v → e.2.tgt ∈ df := by
  intro fuel
  induction fuel with
  | zero =>
    intro stack disc fin acc tr df ff h
    exact absurd h (by simp [dfsPostOrderGo])
  | succ fuel ih =>
    intro stack disc fin acc tr df ff h
    simp only [dfsPostOrderGo] at h
    cases stack with
    | nil =>
      cases h
      exact fun v hv => Or.inl hv
    | cons nx rest =>
      dsimp only at h
      by_cases hd : nx ∈ disc
      · have hrec : ∃ fin' acc', dfsPostOrderGo g fuel rest disc fin' acc'
            = some (tr, df, ff) := by
          rw [if_pos hd] at h
          by_cases hf : nx ∈ fin
          · rw [if_pos hf] at h; exact ⟨fin, acc, h⟩
          · rw [if_neg hf] at h; exact ⟨insert nx fin, acc ++ [nx], h⟩
        obtain ⟨fin', acc', h'⟩ := hrec
        exact ih _ _ _ _ _ _ _ h'
      · rw [if_neg hd] at h
        intro v hv
        rcases ih _ _ _ _ _ _ _ h v hv with hmem | hcl
        · rcases Finset.mem_insert.mp hmem with rfl | hmem'
          · refine Or.inr (fun e he hsrc => ?_)
            have hef : e ∈ edgesFrom g v := edgesFrom_complete he hsrc
            by_cases htd : e.2.tgt ∈ insert v disc
            · exact (dfsPostOrderGo_mono g _ _ _ _ _ _ _ _ h).1 htd
            · have hpush : e.2.tgt ∈ pushList g v (insert v disc) := by
                unfold pushList
                refine List.mem_reverse.mpr (List.mem_filter.mpr ⟨?_, ?_⟩)
                · exact List.mem_map.mpr ⟨e, hef, rfl⟩
                · exact decide_eq_true htd
              exact dfsPostOrderGo_stack_disc g _ _ _ _ _ _ _ _ h e.2.tgt
                (List.mem_append_left _ hpush)
          · exact Or.inl hmem'
        · exact Or.inr hcl

lemma dfsPostOrderGo_fin_of_disc (g : ControlFlowGraph) (D0 : Finset Nat) :
    ∀ (fuel : Nat) (stack : List Nat) (disc fin : Finset Nat) (acc tr : List Nat)
      (df ff : Finset Nat),
      dfsPostOrderGo g fuel stack disc fin acc = some (tr, df, ff) →
      (∀ v ∈ disc, v ∈ D0 ∨ v ∈ fin ∨ v ∈ stack) →
      ∀ v ∈ df, v ∈ D0 ∨ v ∈ ff := by
  intro fuel
  induction fuel with
  | zero =>
    intro stack disc fin acc tr df ff h
    exact absurd h (by simp [dfsPostOrderGo])
  | succ fuel ih =>
    intro stack disc fin acc tr df ff h hinv
    simp only [dfsPostOrderGo] at h
    cases stack with
    | nil =>
      cases h
      intro v hv
      rcases hinv v hv with h1 | h1 | h1
      · exact Or.inl h1
      · exact Or.inr h1
      · cases h1
    | cons nx rest =>
      dsimp only at h
      by_cases hd : nx ∈ disc
      · rw [if_pos hd] at h
        by_cases hf : nx ∈ fin
        · rw [if_pos hf] at h
          refine ih _ _ _ _ _ _ _ h ?_
          intro v hv
          rcases hinv v hv with h1 | h1 | h1
          · exact Or.inl h1
          · exact Or.inr (Or.inl h1)
          · rcases List.mem_cons.mp h1 with rfl | h1'
            · exact Or.inr (Or.inl hf)
            · exact Or.inr (Or.inr h1')
        · rw [if_neg hf] at h
          refine ih _ _ _ _ _ _ _ h ?_
          intro v hv
          rcases hinv v hv with h1 | h1 | h1
          · exact Or.inl h1
          · exact Or.inr (Or.inl (Finset.mem_insert_of_mem h1))
          · rcases List.mem_cons.mp h1 with rfl | h1'
            · exact Or.inr (Or.inl (Finset.mem_insert_self v fin))
            · exact Or.inr (Or.inr h1')
      · rw [if_neg hd] at h
        refine ih _ _ _ _ _ _ _ h ?_
        intro v hv
        rcases Finset.mem_insert.mp hv with rfl | hv'
        · exact Or.inr (Or.inr (List.mem_append_right _ (List.mem_cons_self v rest)))
        · rcases hinv v hv' with h1 | h1 | h1
          · exact Or.inl h1
          · exact Or.inr (Or.inl h1)
          · rcases List.mem_cons.mp h1 with rfl | h1'
            · exact absurd hv' hd
            · exact Or.inr (Or.inr
                (List.mem_append_right _ (List.mem_cons_of_mem nx h1')))

/-- The fuel suffices, so the runner is the real drained traversal. -/
lemma regionPostorder_run (g : ControlFlowGraph) (h s : Nat) :
    ∃ df ff, dfsPostOrderGo g (postorderFuel g h) [h] {s} ∅ [] =
      some (regionPostorder g h s, df, ff) := by
  have hU : ∀ e ∈ g.edges, e.2.tgt ∈ insert h (edgeTargets g) := by
    intro e he
    exact Finset.mem_insert_of_mem (List.mem_toFinset.mpr (List.mem_map.mpr ⟨e, he, rfl⟩))
  have hbound : 1 + ((insert h (edgeTargets g)) \ {s}).card * (1 + g.edges.length)
      < postorderFuel g h := by
    unfold postorderFuel
    have h1 : ((insert h (edgeTargets g)) \ {s}).card ≤ (insert h (edgeTargets g)).card :=
      Finset.card_le_card Finset.sdiff_subset
    have h2 := Nat.mul_le_mul_right (1 + g.edges.length) h1
    omega
  obtain ⟨t, ht⟩ := dfsPostOrderGo_suff g (insert h (edgeTargets g)) hU
    (postorderFuel g h) [h] {s} ∅ []
    (fun x hx => by rcases List.mem_singleton.mp hx with rfl; exact Finset.mem_insert_self _ _)
    (by simpa using hbound)
  rcases t with ⟨tr, df, ff⟩
  have htr : regionPostorder g h s = tr := by
    unfold regionPostorder
    rw [ht]
    rfl
  refine ⟨df, ff, ?_⟩
  rw [htr]
  exact ht

/-- Completeness of the region traversal: every node reachable from the
header along edges avoiding the successor is emitted. -/
lemma mem_regionPostorder_of_reachVia {g : ControlFlowGraph} {h s m : Nat}
    (hr : ReachVia g (fun v => decide (v ≠ s)) h m) :
    m ∈ regionPostorder g h s := by
  obtain ⟨df, ff, hrun⟩ := regionPostorder_run g h s
  obtain ⟨hdmono, hfmono, htr⟩ := dfsPostOrderGo_mono g _ _ _ _ _ _ _ _ hrun
  have hclosed := dfsPostOrderGo_closed g _ _ _ _ _ _ _ _ hrun
  have hfin := dfsPostOrderGo_fin_of_disc g {s} _ _ _ _ _ _ _ _ hrun
    (fun v hv => Or.inl hv)
  have hhs : h ≠ s := of_decide_eq_true hr.1
  have hdf : ∀ v, Relation.ReflTransGen (StepRel g (fun v => decide (v ≠ s))) h v →
      v ∈ df ∧ v ≠ s := by
    intro v hv
    induction hv with
    | refl =>
      exact ⟨dfsPostOrderGo_stack_disc g _ _ _ _ _ _ _ _ hrun h
        (List.mem_singleton_self h), hhs⟩
    | tail hab hstep ihv =>
      obtain ⟨hcdf, hcs⟩ := ihv
      obtain ⟨hadj, hds⟩ := hstep
      have hds' := of_decide_eq_true hds
      rcases hclosed _ hcdf with hmem | hcl
      · exact absurd (Finset.mem_singleton.mp hmem) hcs
      · rcases List.any_eq_true.mp hadj with ⟨e, heg, hcond⟩
        simp only [Bool.and_eq_true, beq_iff_eq] at hcond
        have htgt := hcl e heg hcond.1
        rw [hcond.2] at htgt
        exact ⟨htgt, hds'⟩
  obtain ⟨hmdf, hms⟩ := hdf m hr.2
  rcases hfin m hmdf with hmem | hmem
  · exact absurd (Finset.mem_singleton.mp hmem) hms
  · rw [htr m]
    exact Or.inr ⟨hmem, Finset.not_mem_empty m⟩

/-- C7.  No operation of the structuring algorithm adds a node: a collapse
never increases the node count, and the whole driver pass never does; and
every collapse accepted by the driver's guard (a dominator region of more
than one node with a unique region successor) removes at least one node. -/
theorem claim_C7 (g : ControlFlowGraph) (n s : Nat) (g' : ControlFlowGraph)
    (hwf : EdgesWellFormed g)
    (hok : structure_acyclic_sese_region g n s = Except.ok g') :
    g'.nodes.length ≤ g.nodes.length ∧
    (1 < (dominates_set g n).card →
      successors_of_set g (dominates_set g n) \ dominates_set g n = {s} →
      g'.nodes.length < g.nodes.length) ∧
    (∀ (st : DfsState) (l : List Nat) (gfin : ControlFlowGraph),
      driverLoop st l g = Except.ok gfin → gfin.nodes.length ≤ g.nodes.length) := by
  refine ⟨sese_nodes_le hok, ?_, fun st l gfin hloop => driverLoop_nodes_le st l g gfin hloop⟩
  intro hcard hsdiff
  obtain ⟨a, ha, b, hb, hab⟩ := Finset.one_lt_card.mp hcard
  have hreach_n : Reaches g g.entry n := by
    obtain ⟨_, haR, _, haD⟩ := mem_dominates_set.mp ha
    by_cases hen : g.entry = n
    · exact ⟨rfl, by rw [hen]⟩
    · rcases rtg_split (StepRel g (fun _ => true)) n haR.2 with hleft | ⟨hthrough, _⟩
      · exfalso
        apply haD.2
        refine ⟨decide_eq_true hen, Relation.ReflTransGen.mono ?_ hleft⟩
        intro u v hv
        exact ⟨hv.1.1, decide_eq_true hv.2⟩
      · exact ⟨rfl, hthrough⟩
  have hnN : n ∈ nodeIds g := (mem_dominates_set.mp ha).2.2.1
  have hn_mem : n ∈ dominates_set g n :=
    mem_dominates_set.mpr ⟨hnN, hreach_n, hnN, dominates_self hreach_n⟩
  obtain ⟨m, hmreg, hmn⟩ : ∃ m ∈ dominates_set g n, m ≠ n := by
    by_cases han : a = n
    · exact ⟨b, hb, fun hc => hab (by rw [han, hc])⟩
    · exact ⟨a, ha, han⟩
  have hs_in : s ∈ successors_of_set g (dominates_set g n) \ dominates_set g n := by
    rw [hsdiff]
    exact Finset.mem_singleton_self s
  obtain ⟨hs_succ, hs_notin⟩ := Finset.mem_sdiff.mp hs_in
  obtain ⟨e, heg, hesrc, hetgt⟩ := mem_successors_of_set.mp hs_succ
  have hsN : s ∈ nodeIds g := by
    rw [← hetgt]
    exact (hwf e heg).2
  have hreach_s : Reaches g g.entry s := by
    have hr := (mem_dominates_set.mp hesrc).2.1
    refine ⟨rfl, hr.2.tail ⟨?_, rfl⟩⟩
    have := adjB_of_edge heg
    rwa [hetgt] at this
  have hns : n ≠ s := fun hc => hs_notin (hc ▸ hn_mem)
  have hnds : ¬ Dominates g n s := by
    intro hc
    exact hs_notin (mem_dominates_set.mpr ⟨hsN, hreach_s, hnN, hc⟩)
  have hdm : Dominates g n m := (mem_dominates_set.mp hmreg).2.2.2
  have hrpo : m ∈ regionPostorder g n s :=
    mem_regionPostorder_of_reachVia (dominator_path hdm hns hreach_s hnds)
  have hmN : m ∈ nodeIds g := (mem_dominates_set.mp hmreg).1
  obtain ⟨pm, hpm, hfst⟩ := List.mem_map.mp hmN
  rw [sese_nodes_lengths hok]
  apply length_filter_lt hpm
  rw [hfst]
  rw [Bool.eq_false_iff]
  intro hall
  have := List.all_eq_true.mp hall m (List.mem_reverse.mpr hrpo)
  simp only [Bool.or_eq_true, beq_iff_eq] at this
  rcases this with hc | hc
  · exact hmn hc
  · simp at hc

/-- Witness for C7: collapsing the region `{1, 2}` of `gW` (guard satisfied:
`dominates_set 1 = {1, 2}`, unique successor 3) removes node 2. -/
theorem claim_C7_witness : gWAfter.nodes.length < gW.nodes.length :=
  (claim_C7 gW 1 3 gWAfter (by unfold EdgesWellFormed nodeIds; decide)
    (by rfl)).2.1 (by decide) (by decide)

end CtrlFlow
